import Mathlib

/-!
# Bit-banged two-wire bus driver (`soft_i2c.c`)

A shallow embedding of `src/application/soft_i2c/soft_i2c.c`.

* Every call into the GPIO layer is recorded, in program order, in `Wire.ops`.
  A busy-wait of `soft_i2c_delay` is recorded as one `HalOp.delay cycles` entry, where
  `cycles` is the iteration bound the function resolves on its first line; the spin loop
  itself, with its wrapping 32-bit counter, is `soft_i2c_delay_loop`.
* The GPIO layer belongs to the platform.  Where a claim is about pin state rather than
  about the calls made, `applyHalOp` and `pinsAfter` interpret a trace on a pin state, and
  `lineStep` and `lineScan` follow the levels the master last wrote to the two lines.
* The level the data pin shows when it is sampled is chosen by the peripheral.  It is
  supplied as `samples : Nat → GPIO_PinState`; the `k`-th call of `HAL_GPIO_ReadPin`
  (counted by `Wire.reads`) returns `samples k`.
* `Wire.frames` is a ghost log: each framing primitive (`soft_i2c_start`, `soft_i2c_stop`,
  `soft_i2c_write_byte`, `soft_i2c_read_byte`) appends one entry when it is called.
  `startOps`, `stopOps`, `txOps` and `rxOps` give the pin-level activity an entry stands for.
* `uint8_t`, `uint16_t`, `uint32_t` and `size_t` values are natural numbers; conversions to
  `uint8_t` are written `% 256`.  A pointer to a byte buffer is an `Option (List Nat)`,
  `none` being `NULL`.
-/

namespace SoftI2C

/-- Pin level of the GPIO layer: `GPIO_PIN_RESET` is logical low, `GPIO_PIN_SET` is high. -/
inductive GPIO_PinState
  | GPIO_PIN_RESET
  | GPIO_PIN_SET
  deriving DecidableEq, Repr

open GPIO_PinState

/-- Bus descriptor of `soft_i2c.h`; a port is identified by its address. -/
structure soft_i2c_bus_t where
  scl_port : Nat
  scl_pin : Nat
  sda_port : Nat
  sda_pin : Nat
  delay_cycles : Nat
  deriving DecidableEq, Repr

/-- Pin mode selector of the GPIO layer (`GPIO_MODE_INPUT` is the zero value). -/
inductive GPIO_Mode
  | GPIO_MODE_INPUT
  | GPIO_MODE_OUTPUT_PP
  | GPIO_MODE_OUTPUT_OD
  | GPIO_MODE_ANALOG
  deriving DecidableEq, Repr

/-- Pull selector of the GPIO layer (`GPIO_NOPULL` is the zero value). -/
inductive GPIO_Pull
  | GPIO_NOPULL
  | GPIO_PULLUP
  | GPIO_PULLDOWN
  deriving DecidableEq, Repr

/-- Speed selector of the GPIO layer (`GPIO_SPEED_FREQ_LOW` is the zero value). -/
inductive GPIO_Speed
  | GPIO_SPEED_FREQ_LOW
  | GPIO_SPEED_FREQ_MEDIUM
  | GPIO_SPEED_FREQ_HIGH
  | GPIO_SPEED_FREQ_VERY_HIGH
  deriving DecidableEq, Repr

/-- Pin configuration record passed to `HAL_GPIO_Init`. -/
structure GPIO_InitTypeDef where
  Pin : Nat
  Mode : GPIO_Mode
  Pull : GPIO_Pull
  Speed : GPIO_Speed
  Alternate : Nat
  deriving DecidableEq, Repr

/-- One recorded interaction with the hardware. -/
inductive HalOp
  | writePin (port pin : Nat) (state : GPIO_PinState)
  | readPin (port pin : Nat) (state : GPIO_PinState)
  | delay (cycles : Nat)
  | initPin (port : Nat) (gpio : GPIO_InitTypeDef)
  deriving DecidableEq, Repr

/-- One call of a framing primitive.  `tx byte acked` is a call of `soft_i2c_write_byte`
with its result, `rx ack value` a call of `soft_i2c_read_byte` with its argument and result. -/
inductive Frame
  | start
  | stop
  | tx (byte : Nat) (acked : Bool)
  | rx (ack : Bool) (value : Nat)
  deriving DecidableEq, Repr

/-- Execution state threaded through the driver. -/
structure Wire where
  ops : List HalOp
  frames : List Frame
  reads : Nat
  deriving DecidableEq, Repr

/-- The GPIO layer's pin write, recorded in the trace. -/
def HAL_GPIO_WritePin (port pin : Nat) (state : GPIO_PinState) (w : Wire) : Wire :=
  { w with ops := w.ops ++ [HalOp.writePin port pin state] }

/-- The GPIO layer's pin read: returns the next sample and records it in the trace. -/
def HAL_GPIO_ReadPin (samples : Nat → GPIO_PinState) (port pin : Nat) (w : Wire) :
    GPIO_PinState × Wire :=
  (samples w.reads,
    { w with ops := w.ops ++ [HalOp.readPin port pin (samples w.reads)], reads := w.reads + 1 })

/-- The GPIO layer's pin configuration call, recorded in the trace. -/
def HAL_GPIO_Init (port : Nat) (gpio : GPIO_InitTypeDef) (w : Wire) : Wire :=
  { w with ops := w.ops ++ [HalOp.initPin port gpio] }

/-- Ghost step: note that a framing primitive was called. -/
def logFrame (f : Frame) (w : Wire) : Wire :=
  { w with frames := w.frames ++ [f] }

/-- Iteration bound resolved by the first line of `soft_i2c_delay`. -/
def soft_i2c_delay_cycles (bus : Option soft_i2c_bus_t) : Nat :=
  match bus with
  | some b => if b.delay_cycles ≠ 0 then b.delay_cycles else 32
  | none => 32

/-- Busy-wait of `soft_i2c_delay`. -/
def soft_i2c_delay (bus : Option soft_i2c_bus_t) (w : Wire) : Wire :=
  { w with ops := w.ops ++ [HalOp.delay (soft_i2c_delay_cycles bus)] }

/-- The loop `for (volatile uint32_t i = 0; i < cycles; ++i) { __NOP(); }` of
`soft_i2c_delay`, resumed at counter value `i` after `nops` executions of `__NOP()`.  The
increment wraps at `2^32`.  The first argument bounds the number of loop tests still
allowed; `none` means the bound ran out before the loop was left. -/
def soft_i2c_delay_loop (cycles : Nat) : Nat → Nat → Nat → Option Nat
  | 0, _, _ => none
  | fuel + 1, i, nops =>
    if i < cycles then soft_i2c_delay_loop cycles fuel ((i + 1) % 4294967296) (nops + 1)
    else some nops

/-- Number of `__NOP()` executions of one call of `soft_i2c_delay`, when its loop is left
within `fuel` loop tests. -/
def soft_i2c_delay_spin (bus : Option soft_i2c_bus_t) (fuel : Nat) : Option Nat :=
  soft_i2c_delay_loop (soft_i2c_delay_cycles bus) fuel 0 0

def soft_i2c_scl_high (bus : soft_i2c_bus_t) (w : Wire) : Wire :=
  soft_i2c_delay (some bus) (HAL_GPIO_WritePin bus.scl_port bus.scl_pin GPIO_PIN_SET w)

def soft_i2c_scl_low (bus : soft_i2c_bus_t) (w : Wire) : Wire :=
  soft_i2c_delay (some bus) (HAL_GPIO_WritePin bus.scl_port bus.scl_pin GPIO_PIN_RESET w)

def soft_i2c_sda_high (bus : soft_i2c_bus_t) (w : Wire) : Wire :=
  soft_i2c_delay (some bus) (HAL_GPIO_WritePin bus.sda_port bus.sda_pin GPIO_PIN_SET w)

def soft_i2c_sda_low (bus : soft_i2c_bus_t) (w : Wire) : Wire :=
  soft_i2c_delay (some bus) (HAL_GPIO_WritePin bus.sda_port bus.sda_pin GPIO_PIN_RESET w)

def soft_i2c_start (bus : soft_i2c_bus_t) (w : Wire) : Wire :=
  let w := soft_i2c_sda_high bus w
  let w := soft_i2c_scl_high bus w
  let w := soft_i2c_sda_low bus w
  let w := soft_i2c_scl_low bus w
  logFrame Frame.start w

def soft_i2c_stop (bus : soft_i2c_bus_t) (w : Wire) : Wire :=
  let w := soft_i2c_sda_low bus w
  let w := soft_i2c_scl_high bus w
  let w := soft_i2c_sda_high bus w
  logFrame Frame.stop w

/-- The `for (int bit = 7; bit >= 0; --bit)` loop of `soft_i2c_write_byte`; the counter
argument is `bit + 1`, so the loop is entered with 8 and left at 0. -/
def soft_i2c_write_byte_bits (bus : soft_i2c_bus_t) (byte : Nat) : Nat → Wire → Wire
  | 0, w => w
  | bit + 1, w =>
    let w := soft_i2c_scl_low bus w
    let w := if (byte >>> bit) &&& 1 ≠ 0 then soft_i2c_sda_high bus w else soft_i2c_sda_low bus w
    let w := soft_i2c_scl_high bus w
    soft_i2c_write_byte_bits bus byte bit w

def soft_i2c_write_byte (samples : Nat → GPIO_PinState) (bus : soft_i2c_bus_t) (byte : Nat)
    (w : Wire) : Bool × Wire :=
  let w := soft_i2c_write_byte_bits bus byte 8 w
  let w := soft_i2c_scl_low bus w
  let w := soft_i2c_sda_high bus w
  let w := soft_i2c_scl_high bus w
  let r := HAL_GPIO_ReadPin samples bus.sda_port bus.sda_pin w
  let w := soft_i2c_scl_low bus r.2
  (decide (r.1 = GPIO_PIN_RESET), logFrame (Frame.tx byte (decide (r.1 = GPIO_PIN_RESET))) w)

/-- The `for (int bit = 7; bit >= 0; --bit)` loop of `soft_i2c_read_byte`; the counter
argument is `bit + 1`, and `value` is the `uint8_t` accumulator. -/
def soft_i2c_read_byte_bits (samples : Nat → GPIO_PinState) (bus : soft_i2c_bus_t) :
    Nat → Nat → Wire → Nat × Wire
  | 0, value, w => (value, w)
  | bit + 1, value, w =>
    let w := soft_i2c_scl_low bus w
    let w := soft_i2c_scl_high bus w
    let r := HAL_GPIO_ReadPin samples bus.sda_port bus.sda_pin w
    let value := if r.1 = GPIO_PIN_SET then (value ||| (1 <<< bit)) % 256 else value
    soft_i2c_read_byte_bits samples bus bit value r.2

def soft_i2c_read_byte (samples : Nat → GPIO_PinState) (bus : soft_i2c_bus_t) (ack : Bool)
    (w : Wire) : Nat × Wire :=
  let w := soft_i2c_sda_high bus w
  let r := soft_i2c_read_byte_bits samples bus 8 0 w
  let w := soft_i2c_scl_low bus r.2
  let w := if ack then soft_i2c_sda_low bus w else soft_i2c_sda_high bus w
  let w := soft_i2c_scl_high bus w
  let w := soft_i2c_scl_low bus w
  let w := soft_i2c_sda_high bus w
  (r.1, logFrame (Frame.rx ack r.1) w)

def soft_i2c_init (bus : Option soft_i2c_bus_t) (w : Wire) : Wire :=
  match bus with
  | none => w
  | some bus =>
    let gpio : GPIO_InitTypeDef :=
      ⟨0, GPIO_Mode.GPIO_MODE_INPUT, GPIO_Pull.GPIO_NOPULL, GPIO_Speed.GPIO_SPEED_FREQ_LOW, 0⟩
    let gpio := { gpio with Mode := GPIO_Mode.GPIO_MODE_OUTPUT_OD }
    let gpio := { gpio with Pull := GPIO_Pull.GPIO_NOPULL }
    let gpio := { gpio with Speed := GPIO_Speed.GPIO_SPEED_FREQ_HIGH }
    let gpio := { gpio with Pin := bus.scl_pin }
    let w := HAL_GPIO_Init bus.scl_port gpio w
    let gpio := { gpio with Pin := bus.sda_pin }
    let w := HAL_GPIO_Init bus.sda_port gpio w
    let w := HAL_GPIO_WritePin bus.scl_port bus.scl_pin GPIO_PIN_SET w
    let w := HAL_GPIO_WritePin bus.sda_port bus.sda_pin GPIO_PIN_SET w
    soft_i2c_delay (some bus) w

/-- The payload loop `for (size_t i = 0; i < length; ++i)` shared, verbatim, by
`soft_i2c_write` and the write phase of `soft_i2c_write_then_read`.  The first counter is
`length - i`.  The result is `false` when the loop left the function through its
`soft_i2c_stop; return false` branch. -/
def soft_i2c_tx_loop (samples : Nat → GPIO_PinState) (bus : soft_i2c_bus_t) (data : List Nat) :
    Nat → Nat → Wire → Bool × Wire
  | 0, _, w => (true, w)
  | n + 1, i, w =>
    let r := soft_i2c_write_byte samples bus (data.getD i 0) w
    if !r.1 then (false, soft_i2c_stop bus r.2)
    else soft_i2c_tx_loop samples bus data n (i + 1) r.2

def soft_i2c_write (samples : Nat → GPIO_PinState) (bus : Option soft_i2c_bus_t)
    (address : Nat) (data : Option (List Nat)) (length : Nat) (w : Wire) : Bool × Wire :=
  match bus with
  | none => (false, w)
  | some bus =>
    if length > 0 ∧ data = none then (false, w)
    else
      let w := soft_i2c_start bus w
      let r := soft_i2c_write_byte samples bus ((address &&& 0xFE) % 256) w
      if !r.1 then (false, soft_i2c_stop bus r.2)
      else
        let r := soft_i2c_tx_loop samples bus (data.getD []) length 0 r.2
        if !r.1 then (false, r.2)
        else (true, soft_i2c_stop bus r.2)

/-- The receive loop `for (size_t i = 0; i < rx_length; ++i)` of
`soft_i2c_write_then_read`; the first counter is `rx_length - i`. -/
def soft_i2c_rx_loop (samples : Nat → GPIO_PinState) (bus : soft_i2c_bus_t) (rx_length : Nat) :
    Nat → Nat → List Nat → Wire → List Nat × Wire
  | 0, _, rx, w => (rx, w)
  | n + 1, i, rx, w =>
    let ack := decide (i + 1 < rx_length)
    let r := soft_i2c_read_byte samples bus ack w
    soft_i2c_rx_loop samples bus rx_length n (i + 1) (rx.set i r.1) r.2

/-- Result of `soft_i2c_write_then_read`: the returned flag, the final execution state and
the receive buffer as the call leaves it. -/
structure WtrResult where
  ok : Bool
  wire : Wire
  rx_data : Option (List Nat)
  deriving DecidableEq, Repr

/-- The block `if (tx_length > 0u) { ... }` of `soft_i2c_write_then_read` (write phase).
The result is `false` when the block left the function through one of its
`soft_i2c_stop; return false` branches. -/
def soft_i2c_write_then_read_tx (samples : Nat → GPIO_PinState) (bus : soft_i2c_bus_t)
    (address : Nat) (tx_data : Option (List Nat)) (tx_length : Nat) (w : Wire) : Bool × Wire :=
  if tx_length > 0 then
    let w := soft_i2c_start bus w
    let r := soft_i2c_write_byte samples bus ((address &&& 0xFE) % 256) w
    if !r.1 then (false, soft_i2c_stop bus r.2)
    else soft_i2c_tx_loop samples bus (tx_data.getD []) tx_length 0 r.2
  else (true, w)

/-- The rest of `soft_i2c_write_then_read`: the block `if (rx_length > 0u) { ... }` (read
phase) followed by the final `soft_i2c_stop; return true`. -/
def soft_i2c_write_then_read_rx (samples : Nat → GPIO_PinState) (bus : soft_i2c_bus_t)
    (address : Nat) (rx_data : Option (List Nat)) (rx_length : Nat) (w : Wire) : WtrResult :=
  if rx_length > 0 then
    let w := soft_i2c_start bus w
    let r := soft_i2c_write_byte samples bus ((address ||| 0x01) % 256) w
    if !r.1 then ⟨false, soft_i2c_stop bus r.2, rx_data⟩
    else
      let q := soft_i2c_rx_loop samples bus rx_length rx_length 0 (rx_data.getD []) r.2
      ⟨true, soft_i2c_stop bus q.2, some q.1⟩
  else ⟨true, soft_i2c_stop bus w, rx_data⟩

def soft_i2c_write_then_read (samples : Nat → GPIO_PinState) (bus : Option soft_i2c_bus_t)
    (address : Nat) (tx_data : Option (List Nat)) (tx_length : Nat)
    (rx_data : Option (List Nat)) (rx_length : Nat) (w : Wire) : WtrResult :=
  match bus with
  | none => ⟨false, w, rx_data⟩
  | some bus =>
    if tx_length = 0 ∧ rx_length = 0 then ⟨true, w, rx_data⟩
    else if tx_length > 0 ∧ tx_data = none then ⟨false, w, rx_data⟩
    else if rx_length > 0 ∧ rx_data = none then ⟨false, w, rx_data⟩
    else
      let p := soft_i2c_write_then_read_tx samples bus address tx_data tx_length w
      if !p.1 then ⟨false, p.2, rx_data⟩
      else soft_i2c_write_then_read_rx samples bus address rx_data rx_length p.2

/-! ## Reference traces

The pin-level activity the specification attributes to each line-control operation and
framing primitive, written out as explicit lists. -/

/-- Level that stands for a bit value on a line. -/
def levelOfBit (b : Bool) : GPIO_PinState :=
  if b then GPIO_PIN_SET else GPIO_PIN_RESET

/-- Numeric value of a sampled level. -/
def bitOfLevel (s : GPIO_PinState) : Nat :=
  if s = GPIO_PIN_SET then 1 else 0

/-- Drive the clock line to a level, then one settle delay. -/
def setClock (bus : soft_i2c_bus_t) (state : GPIO_PinState) : List HalOp :=
  [HalOp.writePin bus.scl_port bus.scl_pin state, HalOp.delay (soft_i2c_delay_cycles (some bus))]

/-- Drive the data line to a level, then one settle delay. -/
def setData (bus : soft_i2c_bus_t) (state : GPIO_PinState) : List HalOp :=
  [HalOp.writePin bus.sda_port bus.sda_pin state, HalOp.delay (soft_i2c_delay_cycles (some bus))]

/-- Sample the data line, obtaining the given level. -/
def sampleData (bus : soft_i2c_bus_t) (state : GPIO_PinState) : List HalOp :=
  [HalOp.readPin bus.sda_port bus.sda_pin state]

/-- Start condition: data high, clock high, data low, clock low. -/
def startOps (bus : soft_i2c_bus_t) : List HalOp :=
  setData bus GPIO_PIN_SET ++ setClock bus GPIO_PIN_SET ++ setData bus GPIO_PIN_RESET ++
    setClock bus GPIO_PIN_RESET

/-- Stop condition: data low, clock high, data high. -/
def stopOps (bus : soft_i2c_bus_t) : List HalOp :=
  setData bus GPIO_PIN_RESET ++ setClock bus GPIO_PIN_SET ++ setData bus GPIO_PIN_SET

/-- One data clock pulse of a transmitted byte: clock low, data set to the level, clock high. -/
def txPulse (bus : soft_i2c_bus_t) (state : GPIO_PinState) : List HalOp :=
  setClock bus GPIO_PIN_RESET ++ setData bus state ++ setClock bus GPIO_PIN_SET

/-- Acknowledgement slot of a transmitted byte: clock low, data released, clock high, one
sample of the data line, clock low. -/
def txAckSlot (bus : soft_i2c_bus_t) (sample : GPIO_PinState) : List HalOp :=
  setClock bus GPIO_PIN_RESET ++ setData bus GPIO_PIN_SET ++ setClock bus GPIO_PIN_SET ++
    sampleData bus sample ++ setClock bus GPIO_PIN_RESET

/-- Transmit-byte: eight data pulses, most significant bit first, then the acknowledgement
slot in which the peripheral shows `sample`. -/
def txOps (bus : soft_i2c_bus_t) (byte : Nat) (sample : GPIO_PinState) : List HalOp :=
  (List.range 8).flatMap (fun j => txPulse bus (levelOfBit (byte.testBit (7 - j)))) ++
    txAckSlot bus sample

/-- One read bit-slot: clock low, clock high, one sample of the data line. -/
def rxPulse (bus : soft_i2c_bus_t) (sample : GPIO_PinState) : List HalOp :=
  setClock bus GPIO_PIN_RESET ++ setClock bus GPIO_PIN_SET ++ sampleData bus sample

/-- Acknowledgement slot of a received byte: clock low, data driven to the level, clock
high, clock low, data released. -/
def rxAckSlot (bus : soft_i2c_bus_t) (state : GPIO_PinState) : List HalOp :=
  setClock bus GPIO_PIN_RESET ++ setData bus state ++ setClock bus GPIO_PIN_SET ++
    setClock bus GPIO_PIN_RESET ++ setData bus GPIO_PIN_SET

/-- Receive-byte whose first sample is sample number `r`: data released, eight read
bit-slots, then the acknowledgement slot driven low for `ack = true`, high otherwise. -/
def rxOps (samples : Nat → GPIO_PinState) (bus : soft_i2c_bus_t) (ack : Bool) (r : Nat) :
    List HalOp :=
  setData bus GPIO_PIN_SET ++ (List.range 8).flatMap (fun j => rxPulse bus (samples (r + j))) ++
    rxAckSlot bus (if ack then GPIO_PIN_RESET else GPIO_PIN_SET)

/-- Byte assembled most-significant-bit first from the eight samples numbered `r .. r + 7`. -/
def rxValue (samples : Nat → GPIO_PinState) (r : Nat) : Nat :=
  ∑ k in Finset.range 8, bitOfLevel (samples (r + k)) * 2 ^ (7 - k)

/-- Last level written to a pin in a trace, if it was written at all. -/
def lastWritten (port pin : Nat) : List HalOp → Option GPIO_PinState
  | [] => none
  | HalOp.writePin p q s :: rest =>
    match lastWritten port pin rest with
    | some t => some t
    | none => if p = port ∧ q = pin then some s else none
  | _ :: rest => lastWritten port pin rest

/-- A final execution state that ends with a stop condition: the pin-level trace ends with
the stop sequence, the last framing primitive called is the stop, and the last level written
to the clock pin and to the data pin is high. -/
def EndsIdle (bus : soft_i2c_bus_t) (w : Wire) : Prop :=
  (∃ pre, w.ops = pre ++ stopOps bus) ∧ w.frames.getLast? = some Frame.stop ∧
    lastWritten bus.scl_port bus.scl_pin w.ops = some GPIO_PIN_SET ∧
    lastWritten bus.sda_port bus.sda_pin w.ops = some GPIO_PIN_SET

/-- Registers of one pin as the driver can affect them: its configuration and its output
level. -/
structure PinRegs where
  Mode : GPIO_Mode
  Pull : GPIO_Pull
  Speed : GPIO_Speed
  level : GPIO_PinState
  deriving DecidableEq, Repr

/-- Modelled from the spec: effect of one recorded GPIO-layer call on the pin state (the
GPIO layer itself is the platform's and not part of the sources).  A configuration call
sets mode, pull and speed of the addressed pin and keeps its level; a pin write sets the
level of the addressed pin; a pin read and a delay change nothing.  A pin is addressed by
its port and pin identifier. -/
def applyHalOp (s : Nat → Nat → PinRegs) (op : HalOp) : Nat → Nat → PinRegs :=
  match op with
  | HalOp.initPin port gpio => fun p q =>
    if p = port ∧ q = gpio.Pin then
      { s p q with Mode := gpio.Mode, Pull := gpio.Pull, Speed := gpio.Speed }
    else s p q
  | HalOp.writePin port pin state => fun p q =>
    if p = port ∧ q = pin then { s p q with level := state } else s p q
  | _ => s

/-- Pin state after a trace of GPIO-layer calls, from the pin state `s`. -/
def pinsAfter (s : Nat → Nat → PinRegs) (ops : List HalOp) : Nat → Nat → PinRegs :=
  ops.foldl applyHalOp s

/-- Levels last written by the master to the clock and to the data line, with the number of
changes of the written data level made while the written clock level is high: `falls`
counts the high-to-low ones (the start shape), `rises` the low-to-high ones (the stop
shape). -/
structure LineState where
  scl : GPIO_PinState
  sda : GPIO_PinState
  falls : Nat
  rises : Nat
  deriving DecidableEq, Repr

/-- Effect of one recorded call on the written line levels and the two counters. -/
def lineStep (bus : soft_i2c_bus_t) (st : LineState) (op : HalOp) : LineState :=
  match op with
  | HalOp.writePin p q s =>
    if p = bus.sda_port ∧ q = bus.sda_pin then
      { st with
        sda := s,
        falls := st.falls +
          (if st.scl = GPIO_PIN_SET ∧ st.sda = GPIO_PIN_SET ∧ s = GPIO_PIN_RESET then 1 else 0),
        rises := st.rises +
          (if st.scl = GPIO_PIN_SET ∧ st.sda = GPIO_PIN_RESET ∧ s = GPIO_PIN_SET then 1 else 0) }
    else if p = bus.scl_port ∧ q = bus.scl_pin then { st with scl := s }
    else st
  | _ => st

/-- Written line levels and counters after a trace, from the state `st`. -/
def lineScan (bus : soft_i2c_bus_t) (st : LineState) (ops : List HalOp) : LineState :=
  ops.foldl (lineStep bus) st

end SoftI2C

/-! # Magnet sequencing loop (`droplet_control.c`)

The outer `while (1)` loop of `droplet_rotate_clockwise` as a step function on its two
path indices; `uint8_t` assignments are written `% 256`. -/

namespace DropletControl

def clockwise_path : List Nat := [0, 1, 2, 3, 7, 11, 15, 14, 13, 12, 8, 4]

/-- Value of `sizeof(clockwise_path) / sizeof(clockwise_path[0])` stored in a `uint8_t`. -/
def path_len : Nat := clockwise_path.length % 256

/-- The two local index variables of `droplet_rotate_clockwise`. -/
structure RotateState where
  current_magnet_path_index : Nat
  next_magnet_path_index : Nat
  deriving DecidableEq, Repr

/-- Values of the indices when the outer loop is first entered. -/
def droplet_rotate_entry : RotateState := ⟨0, 1⟩

/-- Lookup `clockwise_path[current_magnet_path_index]` at the top of an iteration; `none`
stands for a read outside the array. -/
def current_magnet_channel (s : RotateState) : Option Nat :=
  clockwise_path[s.current_magnet_path_index]?

/-- Lookup `clockwise_path[next_magnet_path_index]` at the top of an iteration; `none`
stands for a read outside the array. -/
def next_magnet_channel (s : RotateState) : Option Nat :=
  clockwise_path[s.next_magnet_path_index]?

/-- The two index updates at the bottom of one iteration of the outer loop. -/
def droplet_rotate_step (s : RotateState) : RotateState :=
  ⟨((s.current_magnet_path_index + 1) % path_len) % 256,
    ((s.next_magnet_path_index + 1) % path_len) % 256⟩

/-- Indices at the start of iteration `k` of the outer loop. -/
def droplet_rotate_state : Nat → RotateState
  | 0 => droplet_rotate_entry
  | k + 1 => droplet_rotate_step (droplet_rotate_state k)

end DropletControl

namespace SoftI2C

open GPIO_PinState

/-! ## Line control and framing primitives -/

theorem soft_i2c_scl_high_eq (bus : soft_i2c_bus_t) (w : Wire) :
    soft_i2c_scl_high bus w = ⟨w.ops ++ setClock bus GPIO_PIN_SET, w.frames, w.reads⟩ := by
  simp [soft_i2c_scl_high, soft_i2c_delay, HAL_GPIO_WritePin, setClock]

theorem soft_i2c_scl_low_eq (bus : soft_i2c_bus_t) (w : Wire) :
    soft_i2c_scl_low bus w = ⟨w.ops ++ setClock bus GPIO_PIN_RESET, w.frames, w.reads⟩ := by
  simp [soft_i2c_scl_low, soft_i2c_delay, HAL_GPIO_WritePin, setClock]

theorem soft_i2c_sda_high_eq (bus : soft_i2c_bus_t) (w : Wire) :
    soft_i2c_sda_high bus w = ⟨w.ops ++ setData bus GPIO_PIN_SET, w.frames, w.reads⟩ := by
  simp [soft_i2c_sda_high, soft_i2c_delay, HAL_GPIO_WritePin, setData]

theorem soft_i2c_sda_low_eq (bus : soft_i2c_bus_t) (w : Wire) :
    soft_i2c_sda_low bus w = ⟨w.ops ++ setData bus GPIO_PIN_RESET, w.frames, w.reads⟩ := by
  simp [soft_i2c_sda_low, soft_i2c_delay, HAL_GPIO_WritePin, setData]

theorem soft_i2c_start_eq (bus : soft_i2c_bus_t) (w : Wire) :
    soft_i2c_start bus w = ⟨w.ops ++ startOps bus, w.frames ++ [Frame.start], w.reads⟩ := by
  simp [soft_i2c_start, soft_i2c_scl_high_eq, soft_i2c_scl_low_eq, soft_i2c_sda_high_eq,
    soft_i2c_sda_low_eq, logFrame, startOps, List.append_assoc]

theorem soft_i2c_stop_eq (bus : soft_i2c_bus_t) (w : Wire) :
    soft_i2c_stop bus w = ⟨w.ops ++ stopOps bus, w.frames ++ [Frame.stop], w.reads⟩ := by
  simp [soft_i2c_stop, soft_i2c_scl_high_eq, soft_i2c_sda_high_eq,
    soft_i2c_sda_low_eq, logFrame, stopOps, List.append_assoc]

theorem shiftRight_and_one_ne_zero (byte bit : Nat) :
    ((byte >>> bit) &&& 1 ≠ 0) ↔ byte.testBit bit = true := by
  simp [Nat.testBit, Nat.and_comm]

theorem soft_i2c_write_byte_bits_eq (bus : soft_i2c_bus_t) (byte : Nat) (n : Nat) (w : Wire) :
    soft_i2c_write_byte_bits bus byte n w =
      ⟨w.ops ++ (List.range n).flatMap
          (fun j => txPulse bus (levelOfBit (byte.testBit (n - (j + 1))))),
        w.frames, w.reads⟩ := by
  induction n generalizing w with
  | zero => simp [soft_i2c_write_byte_bits]
  | succ n ih =>
    rw [soft_i2c_write_byte_bits]
    simp only [ih, soft_i2c_scl_low_eq, soft_i2c_scl_high_eq, soft_i2c_sda_high_eq,
      soft_i2c_sda_low_eq]
    rw [List.range_succ_eq_map]
    by_cases hc : (byte >>> n) &&& 1 ≠ 0
    · have hb : byte.testBit n = true := (shiftRight_and_one_ne_zero byte n).1 hc
      rw [if_pos hc]
      simp [hb, txPulse, levelOfBit, List.flatMap_map, List.append_assoc]
    · have hb : ¬ byte.testBit n = true := fun h => hc ((shiftRight_and_one_ne_zero byte n).2 h)
      rw [if_neg hc]
      simp [hb, txPulse, levelOfBit, List.flatMap_map, List.append_assoc]

theorem soft_i2c_write_byte_eq (samples : Nat → GPIO_PinState) (bus : soft_i2c_bus_t)
    (byte : Nat) (w : Wire) :
    soft_i2c_write_byte samples bus byte w =
      (decide (samples w.reads = GPIO_PIN_RESET),
        ⟨w.ops ++ txOps bus byte (samples w.reads),
          w.frames ++ [Frame.tx byte (decide (samples w.reads = GPIO_PIN_RESET))],
          w.reads + 1⟩) := by
  have hidx : ∀ j : Nat, 8 - (j + 1) = 7 - j := fun j => by omega
  simp [soft_i2c_write_byte, soft_i2c_write_byte_bits_eq, soft_i2c_scl_low_eq,
    soft_i2c_scl_high_eq, soft_i2c_sda_high_eq, HAL_GPIO_ReadPin, logFrame, txOps, txAckSlot,
    sampleData, List.append_assoc, hidx]

theorem soft_i2c_read_byte_bits_wire (samples : Nat → GPIO_PinState) (bus : soft_i2c_bus_t)
    (n value : Nat) (w : Wire) :
    (soft_i2c_read_byte_bits samples bus n value w).2 =
      ⟨w.ops ++ (List.range n).flatMap (fun j => rxPulse bus (samples (w.reads + j))),
        w.frames, w.reads + n⟩ := by
  induction n generalizing value w with
  | zero => simp [soft_i2c_read_byte_bits]
  | succ n ih =>
    have hidx : ∀ j : Nat, w.reads + 1 + j = w.reads + (j + 1) := fun j => by omega
    rw [soft_i2c_read_byte_bits]
    simp only [ih, soft_i2c_scl_low_eq, soft_i2c_scl_high_eq, HAL_GPIO_ReadPin]
    rw [List.range_succ_eq_map]
    simp [hidx, rxPulse, sampleData, List.flatMap_map, List.append_assoc, Nat.add_assoc]

theorem or_shiftLeft_mod (n q : Nat) (hn : n + 1 ≤ 8) (hv : 2 ^ (n + 1) * q < 256) :
    ((2 ^ (n + 1) * q) ||| (1 <<< n)) % 256 = 2 ^ (n + 1) * q + 2 ^ n ∧
      2 ^ (n + 1) * q + 2 ^ n < 256 := by
  have hlt : 2 ^ n < 2 ^ (n + 1) := Nat.pow_lt_pow_right (by norm_num) (Nat.lt_succ_self n)
  rw [Nat.one_shiftLeft, ← Nat.mul_add_lt_is_or hlt]
  have hbound : 2 ^ (n + 1) * q + 2 ^ n < 256 := by
    have hn8 : n < 8 := by omega
    interval_cases n <;> omega
  exact ⟨Nat.mod_eq_of_lt hbound, hbound⟩

theorem soft_i2c_read_byte_bits_value (samples : Nat → GPIO_PinState) (bus : soft_i2c_bus_t)
    (n value : Nat) (w : Wire) (hn : n ≤ 8) (hq : 2 ^ n ∣ value) (hv : value < 256) :
    (soft_i2c_read_byte_bits samples bus n value w).1 =
      value + ∑ k in Finset.range n, bitOfLevel (samples (w.reads + k)) * 2 ^ (n - (k + 1)) := by
  induction n generalizing value w with
  | zero => simp [soft_i2c_read_byte_bits]
  | succ n ih =>
    have hidx : ∀ j : Nat, w.reads + 1 + j = w.reads + (j + 1) := fun j => by omega
    obtain ⟨q, rfl⟩ := hq
    rw [soft_i2c_read_byte_bits]
    simp only [soft_i2c_scl_low_eq, soft_i2c_scl_high_eq, HAL_GPIO_ReadPin]
    rw [Finset.sum_range_succ']
    by_cases hs : samples w.reads = GPIO_PIN_SET
    · obtain ⟨hor, hlt⟩ := or_shiftLeft_mod n q hn hv
      rw [if_pos hs, hor, ih _ _ (by omega) ⟨2 * q + 1, by ring⟩ hlt]
      simp [hidx, bitOfLevel, hs]
      ring
    · rw [if_neg hs, ih _ _ (by omega) ⟨2 * q, by ring⟩ hv]
      simp [hidx, bitOfLevel, hs]

theorem soft_i2c_read_byte_eq (samples : Nat → GPIO_PinState) (bus : soft_i2c_bus_t)
    (ack : Bool) (w : Wire) :
    soft_i2c_read_byte samples bus ack w =
      (rxValue samples w.reads,
        ⟨w.ops ++ rxOps samples bus ack w.reads,
          w.frames ++ [Frame.rx ack (rxValue samples w.reads)], w.reads + 8⟩) := by
  have hval : (soft_i2c_read_byte_bits samples bus 8 0
      ⟨w.ops ++ setData bus GPIO_PIN_SET, w.frames, w.reads⟩).1 = rxValue samples w.reads := by
    rw [soft_i2c_read_byte_bits_value samples bus 8 0 _ (le_refl 8) (dvd_zero _) (by norm_num)]
    simp only [rxValue, Nat.zero_add]
    exact Finset.sum_congr rfl (fun k _ => by
      have h : 8 - (k + 1) = 7 - k := by omega
      rw [h])
  have hwire := soft_i2c_read_byte_bits_wire samples bus 8 0
    ⟨w.ops ++ setData bus GPIO_PIN_SET, w.frames, w.reads⟩
  unfold soft_i2c_read_byte
  simp only [soft_i2c_sda_high_eq, hval, hwire, soft_i2c_scl_low_eq, soft_i2c_scl_high_eq,
    soft_i2c_sda_low_eq, logFrame]
  cases ack <;> simp [rxOps, rxAckSlot, List.append_assoc]

/-! ## Loops of the transaction orchestrator -/

theorem soft_i2c_tx_loop_acked (samples : Nat → GPIO_PinState) (bus : soft_i2c_bus_t)
    (data : List Nat) (n i : Nat) (w : Wire)
    (hack : ∀ k, k < n → samples (w.reads + k) = GPIO_PIN_RESET) :
    soft_i2c_tx_loop samples bus data n i w =
      (true,
        ⟨w.ops ++ (List.range n).flatMap (fun k => txOps bus (data.getD (i + k) 0) GPIO_PIN_RESET),
          w.frames ++ (List.range n).map (fun k => Frame.tx (data.getD (i + k) 0) true),
          w.reads + n⟩) := by
  induction n generalizing i w with
  | zero => simp [soft_i2c_tx_loop]
  | succ n ih =>
    have h0 : samples w.reads = GPIO_PIN_RESET := by simpa using hack 0 (Nat.succ_pos n)
    have hidx : ∀ j : Nat, i + 1 + j = i + (j + 1) := fun j => by omega
    rw [soft_i2c_tx_loop, soft_i2c_write_byte_eq]
    simp only [h0, decide_True, Bool.not_true, Bool.false_eq_true, if_false]
    rw [ih]
    · rw [List.range_succ_eq_map]
      simp [hidx, List.flatMap_map, List.map_map, Function.comp_def, List.append_assoc,
        Nat.add_assoc, Nat.add_comm 1 n]
    · intro k hk
      have := hack (k + 1) (Nat.succ_lt_succ hk)
      simpa [Nat.add_assoc, Nat.add_comm 1 k] using this

theorem soft_i2c_tx_loop_nack (samples : Nat → GPIO_PinState) (bus : soft_i2c_bus_t)
    (data : List Nat) (n i : Nat) (w : Wire) (k : Nat) (hk : k < n)
    (hack : ∀ j, j < k → samples (w.reads + j) = GPIO_PIN_RESET)
    (hnack : samples (w.reads + k) = GPIO_PIN_SET) :
    soft_i2c_tx_loop samples bus data n i w =
      (false,
        ⟨w.ops ++ (List.range k).flatMap (fun j => txOps bus (data.getD (i + j) 0) GPIO_PIN_RESET)
            ++ txOps bus (data.getD (i + k) 0) GPIO_PIN_SET ++ stopOps bus,
          w.frames ++ (List.range k).map (fun j => Frame.tx (data.getD (i + j) 0) true)
            ++ [Frame.tx (data.getD (i + k) 0) false, Frame.stop],
          w.reads + k + 1⟩) := by
  induction k generalizing n i w with
  | zero =>
    obtain ⟨n, rfl⟩ := Nat.exists_eq_succ_of_ne_zero (Nat.ne_of_gt hk)
    have h0 : samples w.reads = GPIO_PIN_SET := by simpa using hnack
    rw [soft_i2c_tx_loop, soft_i2c_write_byte_eq]
    simp [h0, soft_i2c_stop_eq, List.append_assoc]
  | succ k ih =>
    obtain ⟨n, rfl⟩ := Nat.exists_eq_succ_of_ne_zero (Nat.ne_of_gt (Nat.lt_of_le_of_lt (Nat.zero_le _) hk))
    have h0 : samples w.reads = GPIO_PIN_RESET := by simpa using hack 0 (Nat.succ_pos k)
    have hidx : ∀ j : Nat, i + 1 + j = i + (j + 1) := fun j => by omega
    rw [soft_i2c_tx_loop, soft_i2c_write_byte_eq]
    simp only [h0, decide_True, Bool.not_true, Bool.false_eq_true, if_false]
    rw [ih n (i + 1) _ (Nat.lt_of_succ_lt_succ hk)]
    · rw [List.range_succ_eq_map]
      simp [hidx, List.flatMap_map, List.map_map, Function.comp_def, List.append_assoc,
        Nat.add_assoc, Nat.add_comm 1 k]
    · intro j hj
      have := hack (j + 1) (Nat.succ_lt_succ hj)
      simpa [Nat.add_assoc, Nat.add_comm 1 j] using this
    · simpa [Nat.add_assoc, Nat.add_comm 1 k] using hnack

theorem range_map_getD_eq_take (data : List Nat) (n : Nat) (hn : n ≤ data.length) :
    (List.range n).map (fun k => data[k]?.getD 0) = data.take n := by
  apply List.ext_getElem
  · simp [hn]
  · intro j h1 h2
    have hj : j < data.length := by
      simp at h1
      omega
    simp [hj]

theorem range_flatMap_tx_eq_take (bus : soft_i2c_bus_t) (data : List Nat) (n : Nat)
    (hn : n ≤ data.length) :
    (List.range n).flatMap (fun k => txOps bus (data[k]?.getD 0) GPIO_PIN_RESET) =
      (data.take n).flatMap (fun b => txOps bus b GPIO_PIN_RESET) := by
  rw [← range_map_getD_eq_take data n hn, List.flatMap_map]

theorem range_map_tx_eq_take (data : List Nat) (n : Nat) (hn : n ≤ data.length) :
    (List.range n).map (fun k => Frame.tx (data[k]?.getD 0) true) =
      (data.take n).map (fun b => Frame.tx b true) := by
  rw [← range_map_getD_eq_take data n hn, List.map_map]
  rfl

/-! ## Address bytes -/

set_option maxRecDepth 100000 in
theorem and_254_of_lt : ∀ x : Fin 256, x.val &&& 0xFE = x.val - x.val % 2 := by
  decide

set_option maxRecDepth 100000 in
theorem or_1_of_lt : ∀ x : Fin 256, x.val ||| 0x01 = x.val - x.val % 2 + 1 := by
  decide

theorem write_address_byte (address : Nat) :
    (address &&& 0xFE) % 256 = address % 256 - address % 2 := by
  have h1 : address &&& 0xFE = (address % 256) &&& 0xFE := by
    have h255 : address &&& 255 = address % 256 := Nat.and_pow_two_sub_one_eq_mod address 8
    have h : address &&& 0xFE = address &&& (255 &&& 0xFE) := rfl
    rw [← Nat.and_assoc, h255] at h
    exact h
  have h2 := and_254_of_lt ⟨address % 256, Nat.mod_lt _ (by norm_num)⟩
  simp only at h2
  have h3 : address % 256 % 2 = address % 2 := by omega
  rw [h1, h2, h3]
  omega

theorem read_address_byte (address : Nat) :
    (address ||| 0x01) % 256 = address % 256 - address % 2 + 1 := by
  have h1 : (address ||| 0x01) % 256 = ((address % 256) ||| 0x01) % 256 := by
    apply Nat.eq_of_testBit_eq
    intro i
    have e : (256 : Nat) = 2 ^ 8 := by norm_num
    rw [e]
    simp only [Nat.testBit_mod_two_pow, Nat.testBit_or]
    cases decide (i < 8) <;> simp
  have h2 := or_1_of_lt ⟨address % 256, Nat.mod_lt _ (by norm_num)⟩
  simp only at h2
  have h3 : address % 256 % 2 = address % 2 := by omega
  rw [h1, h2, h3]
  omega

/-! ## Receive loop -/

theorem soft_i2c_rx_loop_wire (samples : Nat → GPIO_PinState) (bus : soft_i2c_bus_t)
    (len n i : Nat) (rx : List Nat) (w : Wire) :
    (soft_i2c_rx_loop samples bus len n i rx w).2 =
      ⟨w.ops ++ (List.range n).flatMap
          (fun k => rxOps samples bus (decide (i + k + 1 < len)) (w.reads + 8 * k)),
        w.frames ++ (List.range n).map
          (fun k => Frame.rx (decide (i + k + 1 < len)) (rxValue samples (w.reads + 8 * k))),
        w.reads + 8 * n⟩ := by
  induction n generalizing i rx w with
  | zero => simp [soft_i2c_rx_loop]
  | succ n ih =>
    have hidx : ∀ j : Nat, i + 1 + j + 1 = i + (j + 1) + 1 := fun j => by omega
    have hrd : ∀ j : Nat, w.reads + 8 + 8 * j = w.reads + 8 * (j + 1) := fun j => by omega
    have hn : w.reads + 8 + 8 * n = w.reads + 8 * (n + 1) := by omega
    rw [soft_i2c_rx_loop]
    simp only [soft_i2c_read_byte_eq, ih]
    rw [List.range_succ_eq_map]
    simp [hidx, hrd, hn, List.flatMap_map, List.map_map, Function.comp_def, List.append_assoc]

theorem soft_i2c_rx_loop_buffer (samples : Nat → GPIO_PinState) (bus : soft_i2c_bus_t)
    (len n i : Nat) (rx : List Nat) (w : Wire) (j : Nat) :
    (soft_i2c_rx_loop samples bus len n i rx w).1[j]? =
      if i ≤ j ∧ j < i + n ∧ j < rx.length then some (rxValue samples (w.reads + 8 * (j - i)))
      else rx[j]? := by
  induction n generalizing i rx w with
  | zero =>
    have : ¬ (i ≤ j ∧ j < i ∧ j < rx.length) := by omega
    simp [soft_i2c_rx_loop, this]
  | succ n ih =>
    rw [soft_i2c_rx_loop]
    simp only [soft_i2c_read_byte_eq, ih, List.length_set, List.getElem?_set]
    by_cases h1 : i + 1 ≤ j ∧ j < i + 1 + n ∧ j < rx.length
    · have h2 : i ≤ j ∧ j < i + (n + 1) ∧ j < rx.length := by omega
      have h3 : w.reads + 8 + 8 * (j - (i + 1)) = w.reads + 8 * (j - i) := by omega
      rw [if_pos h1, if_pos h2, h3]
    · rw [if_neg h1]
      by_cases h4 : i = j
      · subst h4
        by_cases h5 : i < rx.length
        · have h2 : i ≤ i ∧ i < i + (n + 1) ∧ i < rx.length := by omega
          simp [h5, h2]
        · have h2 : ¬ (i ≤ i ∧ i < i + (n + 1) ∧ i < rx.length) := by omega
          have h6 : rx[i]? = none := List.getElem?_eq_none (by omega)
          simp [h5, h2, h6]
      · have h2 : ¬ (i ≤ j ∧ j < i + (n + 1) ∧ j < rx.length) := by omega
        simp [h4, h2]

/-! ## Last written level -/

theorem lastWritten_append (port pin : Nat) (pre l : List HalOp) :
    lastWritten port pin (pre ++ l) =
      match lastWritten port pin l with
      | some t => some t
      | none => lastWritten port pin pre := by
  induction pre with
  | nil => cases h : lastWritten port pin l <;> simp [lastWritten, h]
  | cons op pre ih =>
    cases op with
    | writePin p q s0 =>
      simp only [List.cons_append, lastWritten]
      cases h : lastWritten port pin l <;> rw [h] at ih <;> simp [ih]
    | readPin p q s0 => simpa [lastWritten] using ih
    | delay c => simpa [lastWritten] using ih
    | initPin p g => simpa [lastWritten] using ih

theorem lastWritten_stop (bus : soft_i2c_bus_t) (pre : List HalOp) :
    lastWritten bus.scl_port bus.scl_pin (pre ++ stopOps bus) = some GPIO_PIN_SET ∧
      lastWritten bus.sda_port bus.sda_pin (pre ++ stopOps bus) = some GPIO_PIN_SET := by
  constructor
  · rw [lastWritten_append]
    by_cases h : bus.sda_port = bus.scl_port ∧ bus.sda_pin = bus.scl_pin
    · simp [stopOps, setData, setClock, lastWritten, h]
    · simp [stopOps, setData, setClock, lastWritten, h]
  · rw [lastWritten_append]
    simp [stopOps, setData, setClock, lastWritten]

theorem endsIdle_stop (bus : soft_i2c_bus_t) (w : Wire) : EndsIdle bus (soft_i2c_stop bus w) := by
  rw [soft_i2c_stop_eq]
  exact ⟨⟨w.ops, rfl⟩, by simp, (lastWritten_stop bus w.ops).1, (lastWritten_stop bus w.ops).2⟩

theorem soft_i2c_tx_loop_ok_reads (samples : Nat → GPIO_PinState) (bus : soft_i2c_bus_t)
    (data : List Nat) (n i : Nat) (w : Wire)
    (hok : (soft_i2c_tx_loop samples bus data n i w).1 = true) :
    (soft_i2c_tx_loop samples bus data n i w).2.reads = w.reads + n := by
  induction n generalizing i w with
  | zero => simp [soft_i2c_tx_loop]
  | succ n ih =>
    rw [soft_i2c_tx_loop, soft_i2c_write_byte_eq] at hok ⊢
    by_cases h0 : samples w.reads = GPIO_PIN_RESET
    · simp only [h0, decide_True, Bool.not_true, Bool.false_eq_true, if_false] at hok ⊢
      rw [ih _ _ hok]
      simp [Nat.add_assoc, Nat.add_comm 1 n]
    · simp [h0] at hok

theorem soft_i2c_tx_loop_false_stop (samples : Nat → GPIO_PinState) (bus : soft_i2c_bus_t)
    (data : List Nat) (n i : Nat) (w : Wire)
    (hok : (soft_i2c_tx_loop samples bus data n i w).1 = false) :
    ∃ w', (soft_i2c_tx_loop samples bus data n i w).2 = soft_i2c_stop bus w' := by
  induction n generalizing i w with
  | zero => simp [soft_i2c_tx_loop] at hok
  | succ n ih =>
    rw [soft_i2c_tx_loop] at hok ⊢
    by_cases h0 : (soft_i2c_write_byte samples bus (data.getD i 0) w).1 = true
    · simp only [h0, Bool.not_true, Bool.false_eq_true, if_false] at hok ⊢
      exact ih _ _ hok
    · simp only [h0, Bool.not_false, if_true]
      exact ⟨_, rfl⟩

theorem soft_i2c_tx_loop_frames (samples : Nat → GPIO_PinState) (bus : soft_i2c_bus_t)
    (data : List Nat) (n i : Nat) (w : Wire) :
    ∃ rest, (soft_i2c_tx_loop samples bus data n i w).2.frames = w.frames ++ rest := by
  induction n generalizing i w with
  | zero => exact ⟨[], by simp [soft_i2c_tx_loop]⟩
  | succ n ih =>
    rw [soft_i2c_tx_loop, soft_i2c_write_byte_eq]
    by_cases h0 : samples w.reads = GPIO_PIN_RESET
    · simp only [h0, decide_True, Bool.not_true, Bool.false_eq_true, if_false]
      obtain ⟨rest, hrest⟩ := ih (i + 1)
        ⟨w.ops ++ txOps bus (data.getD i 0) GPIO_PIN_RESET,
          w.frames ++ [Frame.tx (data.getD i 0) true], w.reads + 1⟩
      exact ⟨Frame.tx (data.getD i 0) true :: rest, by rw [hrest]; simp⟩
    · simp only [h0, decide_False, Bool.not_false, if_true, soft_i2c_stop_eq]
      exact ⟨[Frame.tx (data.getD i 0) false, Frame.stop], by simp⟩

theorem soft_i2c_rx_loop_length (samples : Nat → GPIO_PinState) (bus : soft_i2c_bus_t)
    (len n i : Nat) (rx : List Nat) (w : Wire) :
    (soft_i2c_rx_loop samples bus len n i rx w).1.length = rx.length := by
  induction n generalizing i rx w with
  | zero => simp [soft_i2c_rx_loop]
  | succ n ih =>
    rw [soft_i2c_rx_loop]
    simp only [ih, List.length_set]

/-! ## `soft_i2c_write` -/

/-- C1: on a non-null bus, when the peripheral shows low at every acknowledgement sample,
`soft_i2c_write` returns `true`; the framing primitives it calls are exactly one start, the
transmit of the address byte (low 8 bits of `address` with bit 0 cleared), the transmits of
`data[0], ..., data[length-1]` in order, and one stop; the pin-level trace is the
concatenation of the traces of exactly these primitives.  A zero-length payload (with any
`data` pointer, `NULL` included) is the address-only probe. -/
theorem soft_i2c_write_all_acked (samples : Nat → GPIO_PinState) (bus : soft_i2c_bus_t)
    (address : Nat) (data : Option (List Nat)) (length : Nat) (w : Wire)
    (hlen : length ≤ (data.getD []).length)
    (hack : ∀ k, k ≤ length → samples (w.reads + k) = GPIO_PIN_RESET) :
    soft_i2c_write samples (some bus) address data length w =
      (true,
        ⟨w.ops ++ startOps bus ++ txOps bus (address % 256 - address % 2) GPIO_PIN_RESET
            ++ ((data.getD []).take length).flatMap (fun b => txOps bus b GPIO_PIN_RESET)
            ++ stopOps bus,
          w.frames ++ [Frame.start, Frame.tx (address % 256 - address % 2) true]
            ++ ((data.getD []).take length).map (fun b => Frame.tx b true)
            ++ [Frame.stop],
          w.reads + length + 1⟩) := by
  have hguard : ¬ (length > 0 ∧ data = none) := by
    rintro ⟨hpos, rfl⟩
    simp at hlen
    omega
  have h0 : samples w.reads = GPIO_PIN_RESET := by simpa using hack 0 (Nat.zero_le _)
  have htail : ∀ k, k < length → samples (w.reads + 1 + k) = GPIO_PIN_RESET := by
    intro k hk
    have := hack (k + 1) hk
    simpa [Nat.add_assoc, Nat.add_comm 1 k] using this
  unfold soft_i2c_write
  simp only [hguard, if_false, soft_i2c_start_eq, soft_i2c_write_byte_eq, h0, decide_True,
    Bool.not_true, Bool.false_eq_true]
  rw [soft_i2c_tx_loop_acked samples bus (data.getD []) length 0 _ htail]
  simp only [Bool.not_true, Bool.false_eq_true, if_false, soft_i2c_stop_eq, write_address_byte,
    Nat.zero_add, List.getD_eq_getElem?_getD, range_map_tx_eq_take _ _ hlen,
    range_flatMap_tx_eq_take _ _ _ hlen]
  simp [List.append_assoc, Nat.add_assoc, Nat.add_comm 1 length]

/-- Witness for C1: bus on pins 6 and 7, address argument `0x81`, payload `[0xA5, 0x3C]`,
every sample low. -/
theorem soft_i2c_write_all_acked_witness :
    (2 ≤ ((some [0xA5, 0x3C] : Option (List Nat)).getD []).length) ∧
    (∀ k, k ≤ 2 → (fun _ : Nat => GPIO_PIN_RESET) ((⟨[], [], 0⟩ : Wire).reads + k)
      = GPIO_PIN_RESET) ∧
    (soft_i2c_write (fun _ => GPIO_PIN_RESET) (some ⟨1, 6, 1, 7, 1⟩) 0x81
        (some [0xA5, 0x3C]) 2 ⟨[], [], 0⟩).1 = true ∧
    (soft_i2c_write (fun _ => GPIO_PIN_RESET) (some ⟨1, 6, 1, 7, 1⟩) 0x81
        (some [0xA5, 0x3C]) 2 ⟨[], [], 0⟩).2.frames =
      [Frame.start, Frame.tx 0x80 true, Frame.tx 0xA5 true, Frame.tx 0x3C true, Frame.stop] := by
  have h := soft_i2c_write_all_acked (fun _ => GPIO_PIN_RESET) ⟨1, 6, 1, 7, 1⟩ 0x81
    (some [0xA5, 0x3C]) 2 ⟨[], [], 0⟩ (by decide) (fun _ _ => rfl)
  refine ⟨by decide, fun _ _ => rfl, ?_, ?_⟩
  · rw [h]
  · rw [h]
    rfl

/-- C2: when transmitted byte number `k` of `soft_i2c_write` (0 is the address byte,
`1..length` the payload) is the first whose acknowledgement sample is high, the call
transmits exactly bytes `0..k` (the first `k` acknowledged, byte `k` not), emits a stop and
returns `false`; nothing after byte `k` is transmitted and exactly `k + 1` samples are
taken. -/
theorem soft_i2c_write_first_nack (samples : Nat → GPIO_PinState) (bus : soft_i2c_bus_t)
    (address : Nat) (data : Option (List Nat)) (length : Nat) (w : Wire) (k : Nat)
    (hlen : length ≤ (data.getD []).length) (hk : k ≤ length)
    (hack : ∀ j, j < k → samples (w.reads + j) = GPIO_PIN_RESET)
    (hnack : samples (w.reads + k) = GPIO_PIN_SET) :
    let bytes := (address % 256 - address % 2) :: (data.getD []).take length
    soft_i2c_write samples (some bus) address data length w =
      (false,
        ⟨w.ops ++ startOps bus
            ++ (bytes.take k).flatMap (fun b => txOps bus b GPIO_PIN_RESET)
            ++ txOps bus (bytes.getD k 0) GPIO_PIN_SET ++ stopOps bus,
          w.frames ++ [Frame.start] ++ (bytes.take k).map (fun b => Frame.tx b true)
            ++ [Frame.tx (bytes.getD k 0) false, Frame.stop],
          w.reads + k + 1⟩) := by
  intro bytes
  have hguard : ¬ (length > 0 ∧ data = none) := by
    rintro ⟨hpos, rfl⟩
    simp at hlen
    omega
  unfold soft_i2c_write
  simp only [hguard, if_false, soft_i2c_start_eq, soft_i2c_write_byte_eq]
  cases k with
  | zero =>
    have h0 : samples w.reads = GPIO_PIN_SET := by simpa using hnack
    simp [h0, soft_i2c_stop_eq, bytes, write_address_byte, List.append_assoc]
  | succ k =>
    have h0 : samples w.reads = GPIO_PIN_RESET := by simpa using hack 0 (Nat.succ_pos k)
    have hklen : k ≤ (data.getD []).length := by omega
    have htail : ∀ j, j < k → samples (w.reads + 1 + j) = GPIO_PIN_RESET := by
      intro j hj
      have := hack (j + 1) (Nat.succ_lt_succ hj)
      simpa [Nat.add_assoc, Nat.add_comm 1 j] using this
    have hn : samples (w.reads + 1 + k) = GPIO_PIN_SET := by
      simpa [Nat.add_assoc, Nat.add_comm 1 k] using hnack
    have hget : ((data.getD []).take length)[k]? = (data.getD [])[k]? := by
      have h1 : k < length := hk
      simp [List.getElem?_take, h1]
    have htake : ((data.getD []).take length).take k = (data.getD []).take k := by
      rw [List.take_take, Nat.min_eq_left (by omega)]
    simp only [h0, decide_True, Bool.not_true, Bool.false_eq_true, if_false]
    rw [soft_i2c_tx_loop_nack samples bus (data.getD []) length 0 _ k hk htail hn]
    simp only [Bool.not_false, if_true, write_address_byte, Nat.zero_add,
      List.getD_eq_getElem?_getD, range_map_tx_eq_take _ _ hklen,
      range_flatMap_tx_eq_take _ _ _ hklen]
    simp [bytes, hget, htake, List.append_assoc, Nat.add_assoc, Nat.add_comm 1 k]

/-- Witness for C2: payload `[0xA5, 0x3C, 0x0F]`, the second payload byte (index 2 of the
transmitted bytes) is the first one not acknowledged. -/
theorem soft_i2c_write_first_nack_witness :
    (soft_i2c_write (fun k => if k = 2 then GPIO_PIN_SET else GPIO_PIN_RESET)
        (some ⟨1, 6, 1, 7, 1⟩) 0x80 (some [0xA5, 0x3C, 0x0F]) 3 ⟨[], [], 0⟩).1 = false ∧
    (soft_i2c_write (fun k => if k = 2 then GPIO_PIN_SET else GPIO_PIN_RESET)
        (some ⟨1, 6, 1, 7, 1⟩) 0x80 (some [0xA5, 0x3C, 0x0F]) 3 ⟨[], [], 0⟩).2.frames =
      [Frame.start, Frame.tx 0x80 true, Frame.tx 0xA5 true, Frame.tx 0x3C false, Frame.stop] := by
  have h := soft_i2c_write_first_nack (fun k => if k = 2 then GPIO_PIN_SET else GPIO_PIN_RESET)
    ⟨1, 6, 1, 7, 1⟩ 0x80 (some [0xA5, 0x3C, 0x0F]) 3 ⟨[], [], 0⟩ 2 (by decide) (by decide)
    (fun j hj => by
      have : j ≠ 2 := Nat.ne_of_lt hj
      simp [this])
    (by simp)
  simp only at h
  constructor
  · rw [h]
  · rw [h]
    rfl

/-! ## `soft_i2c_write_then_read` -/

/-- C3: on a non-null bus, `soft_i2c_write_then_read` with `tx_length = 0` and
`rx_length = 0` returns `true` and leaves the execution state as it found it (no pin is
written, none is read, no framing primitive is called) and the receive buffer untouched,
whatever the two buffer pointers are. -/
theorem soft_i2c_write_then_read_noop (samples : Nat → GPIO_PinState) (bus : soft_i2c_bus_t)
    (address : Nat) (tx_data rx_data : Option (List Nat)) (w : Wire) :
    soft_i2c_write_then_read samples (some bus) address tx_data 0 rx_data 0 w =
      ⟨true, w, rx_data⟩ := by
  simp [soft_i2c_write_then_read]

/-- C4: with a non-empty `tx` of length `m`, `rx_length = n ≥ 1`, and every acknowledgement
sample low (the `m + 1` of the write phase and the one of the read-direction address),
`soft_i2c_write_then_read` returns `true` and calls exactly: start, transmit of the
write-direction address byte, transmits of `tx[0..m-1]` in order, a second start (no stop
before it), transmit of the read-direction address byte, `n` receive-byte calls of which
call `i` has `ack = true` iff `i + 1 < n`, and one stop; the pin-level trace is the
concatenation of the traces of exactly these primitives. -/
theorem soft_i2c_write_then_read_all_acked (samples : Nat → GPIO_PinState)
    (bus : soft_i2c_bus_t) (address : Nat) (tx_data : Option (List Nat)) (m : Nat)
    (rx_data : Option (List Nat)) (n : Nat) (w : Wire)
    (hm : 0 < m) (hmlen : m ≤ (tx_data.getD []).length) (hn : 0 < n) (hrx : rx_data ≠ none)
    (hack : ∀ k, k ≤ m + 1 → samples (w.reads + k) = GPIO_PIN_RESET) :
    (soft_i2c_write_then_read samples (some bus) address tx_data m rx_data n w).ok = true ∧
    (soft_i2c_write_then_read samples (some bus) address tx_data m rx_data n w).wire.frames =
      w.frames ++ [Frame.start, Frame.tx (address % 256 - address % 2) true]
        ++ ((tx_data.getD []).take m).map (fun b => Frame.tx b true)
        ++ [Frame.start, Frame.tx (address % 256 - address % 2 + 1) true]
        ++ (List.range n).map
            (fun i => Frame.rx (decide (i + 1 < n)) (rxValue samples (w.reads + m + 2 + 8 * i)))
        ++ [Frame.stop] ∧
    (soft_i2c_write_then_read samples (some bus) address tx_data m rx_data n w).wire.ops =
      w.ops ++ startOps bus ++ txOps bus (address % 256 - address % 2) GPIO_PIN_RESET
        ++ ((tx_data.getD []).take m).flatMap (fun b => txOps bus b GPIO_PIN_RESET)
        ++ startOps bus ++ txOps bus (address % 256 - address % 2 + 1) GPIO_PIN_RESET
        ++ (List.range n).flatMap
            (fun i => rxOps samples bus (decide (i + 1 < n)) (w.reads + m + 2 + 8 * i))
        ++ stopOps bus := by
  have hg1 : ¬ (m = 0 ∧ n = 0) := by omega
  have hg2 : ¬ (m > 0 ∧ tx_data = none) := by
    rintro ⟨_, rfl⟩
    simp at hmlen
    omega
  have hg3 : ¬ (n > 0 ∧ rx_data = none) := fun h => hrx h.2
  have htx : tx_data ≠ none := fun h => hg2 ⟨hm, h⟩
  have hmpos : m > 0 := hm
  have hnpos : n > 0 := hn
  have h0 : samples w.reads = GPIO_PIN_RESET := by simpa using hack 0 (Nat.zero_le _)
  have htail : ∀ k, k < m → samples (w.reads + 1 + k) = GPIO_PIN_RESET := by
    intro k hk
    have := hack (k + 1) (by omega)
    simpa [Nat.add_assoc, Nat.add_comm 1 k] using this
  have hra : samples (w.reads + 1 + m) = GPIO_PIN_RESET := by
    have := hack (m + 1) (Nat.le_refl _)
    simpa [Nat.add_assoc, Nat.add_comm 1 m] using this
  have hidx : ∀ i : Nat, w.reads + 1 + m + 1 + 8 * i = w.reads + m + 2 + 8 * i :=
    fun i => by omega
  unfold soft_i2c_write_then_read soft_i2c_write_then_read_tx soft_i2c_write_then_read_rx
  simp only [hg1, hg2, hg3, if_false]
  simp only [hmpos, hnpos, if_true, soft_i2c_start_eq,
    soft_i2c_write_byte_eq, h0, decide_True, Bool.not_true, Bool.false_eq_true, if_false]
  rw [soft_i2c_tx_loop_acked samples bus (tx_data.getD []) m 0 _ htail]
  simp only [Bool.not_true, Bool.false_eq_true, if_false, soft_i2c_start_eq,
    soft_i2c_write_byte_eq, hra, decide_True, soft_i2c_rx_loop_wire, soft_i2c_stop_eq,
    write_address_byte, read_address_byte, Nat.zero_add, List.getD_eq_getElem?_getD,
    range_map_tx_eq_take _ _ hmlen, range_flatMap_tx_eq_take _ _ _ hmlen, hidx]
  simp [List.append_assoc]

/-- Witness for C4: the specification's case `tx = [0x01]`, `rx_length = 2`, with every
acknowledgement sample low; samples 3, 10 and 17 are high, so the two received bytes are
`0x81` and `0x02`. -/
theorem soft_i2c_write_then_read_all_acked_witness :
    (soft_i2c_write_then_read
        (fun k => if k = 3 ∨ k = 10 ∨ k = 17 then GPIO_PIN_SET else GPIO_PIN_RESET)
        (some ⟨1, 6, 1, 7, 1⟩) 0x80 (some [0x01]) 1 (some [0, 0]) 2 ⟨[], [], 0⟩).ok = true ∧
    (soft_i2c_write_then_read
        (fun k => if k = 3 ∨ k = 10 ∨ k = 17 then GPIO_PIN_SET else GPIO_PIN_RESET)
        (some ⟨1, 6, 1, 7, 1⟩) 0x80 (some [0x01]) 1 (some [0, 0]) 2 ⟨[], [], 0⟩).wire.frames =
      [Frame.start, Frame.tx 0x80 true, Frame.tx 0x01 true, Frame.start, Frame.tx 0x81 true,
        Frame.rx true 0x81, Frame.rx false 0x02, Frame.stop] := by
  have h := soft_i2c_write_then_read_all_acked
    (fun k => if k = 3 ∨ k = 10 ∨ k = 17 then GPIO_PIN_SET else GPIO_PIN_RESET)
    ⟨1, 6, 1, 7, 1⟩ 0x80 (some [0x01]) 1 (some [0, 0]) 2 ⟨[], [], 0⟩
    (by decide) (by decide) (by decide) (by simp)
    (fun k hk => by
      have h3 : k ≠ 3 := by omega
      have h10 : k ≠ 10 := by omega
      have h17 : k ≠ 17 := by omega
      simp [h3, h10, h17])
  refine ⟨h.1, ?_⟩
  rw [h.2.1]
  simp [rxValue, bitOfLevel, Finset.sum_range_succ, List.range_succ]

theorem soft_i2c_write_then_read_tx_ok_reads (samples : Nat → GPIO_PinState)
    (bus : soft_i2c_bus_t) (address : Nat) (tx_data : Option (List Nat)) (tx_length : Nat)
    (w : Wire)
    (hok : (soft_i2c_write_then_read_tx samples bus address tx_data tx_length w).1 = true) :
    (soft_i2c_write_then_read_tx samples bus address tx_data tx_length w).2.reads =
      w.reads + (if tx_length > 0 then tx_length + 1 else 0) := by
  unfold soft_i2c_write_then_read_tx at hok ⊢
  by_cases hm : tx_length > 0
  · simp only [hm, if_true, soft_i2c_start_eq, soft_i2c_write_byte_eq] at hok ⊢
    by_cases h0 : samples w.reads = GPIO_PIN_RESET
    · simp only [h0, decide_True, Bool.not_true, Bool.false_eq_true, if_false] at hok ⊢
      rw [soft_i2c_tx_loop_ok_reads _ _ _ _ _ _ hok]
      simp [Nat.add_assoc, Nat.add_comm 1 tx_length]
    · simp [h0] at hok
  · simp [hm]

theorem soft_i2c_write_then_read_tx_false_stop (samples : Nat → GPIO_PinState)
    (bus : soft_i2c_bus_t) (address : Nat) (tx_data : Option (List Nat)) (tx_length : Nat)
    (w : Wire)
    (hok : (soft_i2c_write_then_read_tx samples bus address tx_data tx_length w).1 = false) :
    ∃ w', (soft_i2c_write_then_read_tx samples bus address tx_data tx_length w).2 =
      soft_i2c_stop bus w' := by
  unfold soft_i2c_write_then_read_tx at hok ⊢
  by_cases hm : tx_length > 0
  · simp only [hm, if_true] at hok ⊢
    by_cases h0 : (soft_i2c_write_byte samples bus ((address &&& 0xFE) % 256)
        (soft_i2c_start bus w)).1 = true
    · simp only [h0, Bool.not_true, Bool.false_eq_true, if_false] at hok ⊢
      exact soft_i2c_tx_loop_false_stop _ _ _ _ _ _ hok
    · simp only [h0, Bool.not_false, if_true]
      exact ⟨_, rfl⟩
  · simp [hm] at hok

theorem soft_i2c_write_then_read_rx_stop (samples : Nat → GPIO_PinState)
    (bus : soft_i2c_bus_t) (address : Nat) (rx_data : Option (List Nat)) (rx_length : Nat)
    (w : Wire) :
    ∃ w', (soft_i2c_write_then_read_rx samples bus address rx_data rx_length w).wire =
      soft_i2c_stop bus w' := by
  unfold soft_i2c_write_then_read_rx
  by_cases hn : rx_length > 0
  · simp only [hn, if_true]
    by_cases h0 : (soft_i2c_write_byte samples bus ((address ||| 0x01) % 256)
        (soft_i2c_start bus w)).1 = true
    · simp only [h0, Bool.not_true, Bool.false_eq_true, if_false]
      exact ⟨_, rfl⟩
    · simp only [h0, Bool.not_false, if_true]
      exact ⟨_, rfl⟩
  · simp only [hn, if_false]
    exact ⟨_, rfl⟩

/-- C5: whenever `soft_i2c_write_then_read` returns `true` with `rx_length = n ≥ 1` (and a
receive buffer of at least `n` elements), the receive-byte calls are the last `n` framing
primitives before the stop and take the samples numbered `off, ..., off + 8n - 1`, where
`off` counts the acknowledgement samples taken before; on return the buffer keeps its length
and `rx_data[i]` is the sum over `k < 8` of sample `off + 8i + k` times `2^(7-k)` for every
`i < n`: each byte is assembled most significant bit first from its own 8 samples, and all
`n` bytes are stored. -/
theorem soft_i2c_write_then_read_bytes (samples : Nat → GPIO_PinState) (bus : soft_i2c_bus_t)
    (address : Nat) (tx_data : Option (List Nat)) (tx_length : Nat)
    (rx_data : Option (List Nat)) (n : Nat) (w : Wire)
    (hn : 0 < n) (hrx : n ≤ (rx_data.getD []).length)
    (hok : (soft_i2c_write_then_read samples (some bus) address tx_data tx_length
      rx_data n w).ok = true) :
    ∃ (off : Nat) (pre : List HalOp) (out : List Nat),
      off = w.reads + (if tx_length > 0 then tx_length + 1 else 0) + 1 ∧
      (soft_i2c_write_then_read samples (some bus) address tx_data tx_length
        rx_data n w).wire.ops =
        pre ++ (List.range n).flatMap
            (fun i => rxOps samples bus (decide (i + 1 < n)) (off + 8 * i)) ++ stopOps bus ∧
      (soft_i2c_write_then_read samples (some bus) address tx_data tx_length
        rx_data n w).wire.reads = off + 8 * n ∧
      (soft_i2c_write_then_read samples (some bus) address tx_data tx_length
        rx_data n w).rx_data = some out ∧
      out.length = (rx_data.getD []).length ∧
      ∀ i, i < n →
        out[i]? = some (∑ k in Finset.range 8,
          bitOfLevel (samples (off + 8 * i + k)) * 2 ^ (7 - k)) := by
  have hg1 : ¬ (tx_length = 0 ∧ n = 0) := by omega
  have hnpos : n > 0 := hn
  unfold soft_i2c_write_then_read at hok ⊢
  simp only [hg1, if_false] at hok ⊢
  by_cases hg2 : tx_length > 0 ∧ tx_data = none
  · rw [if_pos hg2] at hok
    simp at hok
  rw [if_neg hg2] at hok ⊢
  by_cases hg3 : n > 0 ∧ rx_data = none
  · rw [if_pos hg3] at hok
    simp at hok
  rw [if_neg hg3] at hok ⊢
  by_cases hp : (soft_i2c_write_then_read_tx samples bus address tx_data tx_length w).1 = true
  · have hreads := soft_i2c_write_then_read_tx_ok_reads _ _ _ _ _ _ hp
    simp only [hp, Bool.not_true, Bool.false_eq_true, if_false] at hok ⊢
    generalize soft_i2c_write_then_read_tx samples bus address tx_data tx_length w = p
      at hok hreads ⊢
    unfold soft_i2c_write_then_read_rx at hok ⊢
    simp only [hnpos, if_true, soft_i2c_start_eq, soft_i2c_write_byte_eq] at hok ⊢
    by_cases h0 : samples p.2.reads = GPIO_PIN_RESET
    · simp only [h0, decide_True, Bool.not_true, Bool.false_eq_true, if_false,
        soft_i2c_rx_loop_wire, soft_i2c_stop_eq]
      refine ⟨p.2.reads + 1,
        p.2.ops ++ startOps bus ++ txOps bus ((address ||| 1) % 256) GPIO_PIN_RESET, _,
        by rw [hreads], ?_, rfl, rfl, soft_i2c_rx_loop_length _ _ _ _ _ _ _, ?_⟩
      · simp only [Nat.zero_add, List.append_assoc]
      · intro i hi
        rw [soft_i2c_rx_loop_buffer]
        have hcond : 0 ≤ i ∧ i < 0 + n ∧ i < (rx_data.getD []).length := by omega
        rw [if_pos hcond]
        simp only [rxValue, Nat.sub_zero, Nat.add_assoc]
    · simp [h0] at hok
  · simp [hp] at hok

/-- Witness for C5: `tx = [0x01]`, `rx_length = 2`, samples 3, 10 and 17 high and all
others low: the call succeeds and stores `0x81` and `0x02`. -/
theorem soft_i2c_write_then_read_bytes_witness :
    ∃ out : List Nat,
      (soft_i2c_write_then_read
        (fun k => if k = 3 ∨ k = 10 ∨ k = 17 then GPIO_PIN_SET else GPIO_PIN_RESET)
        (some ⟨1, 6, 1, 7, 1⟩) 0x80 (some [0x01]) 1 (some [0, 0]) 2 ⟨[], [], 0⟩).rx_data
        = some out ∧ out[0]? = some 0x81 ∧ out[1]? = some 0x02 := by
  obtain ⟨off, pre, out, hoff, -, -, hout, -, hbytes⟩ := soft_i2c_write_then_read_bytes
    (fun k => if k = 3 ∨ k = 10 ∨ k = 17 then GPIO_PIN_SET else GPIO_PIN_RESET)
    ⟨1, 6, 1, 7, 1⟩ 0x80 (some [0x01]) 1 (some [0, 0]) 2 ⟨[], [], 0⟩
    (by decide) (by decide) (by decide)
  have e : off = 3 := by simpa using hoff
  subst e
  refine ⟨out, hout, ?_, ?_⟩
  · rw [hbytes 0 (by decide)]
    simp [bitOfLevel, Finset.sum_range_succ]
  · rw [hbytes 1 (by decide)]
    simp [bitOfLevel, Finset.sum_range_succ]

/-! ## Bit-level behaviour of the byte primitives -/

/-- C6: for every byte, `soft_i2c_write_byte` emits exactly eight data clock pulses
followed by the acknowledgement slot; pulse `j` (`j = 0..7`) is clock low, data written to
the level of bit `7 - j` of the byte, clock high, each write followed by one delay.  For
`0xA5` the eight data levels are 1,0,1,0,0,1,0,1 in that order. -/
theorem soft_i2c_write_byte_bit_exact (samples : Nat → GPIO_PinState) (bus : soft_i2c_bus_t)
    (byte : Nat) (w : Wire) :
    (soft_i2c_write_byte samples bus byte w).2.ops =
      w.ops ++ (List.range 8).flatMap (fun j =>
          setClock bus GPIO_PIN_RESET ++ setData bus (levelOfBit (byte.testBit (7 - j)))
            ++ setClock bus GPIO_PIN_SET)
        ++ txAckSlot bus (samples w.reads) ∧
    (soft_i2c_write_byte samples bus 0xA5 w).2.ops =
      w.ops ++ [GPIO_PIN_SET, GPIO_PIN_RESET, GPIO_PIN_SET, GPIO_PIN_RESET, GPIO_PIN_RESET,
            GPIO_PIN_SET, GPIO_PIN_RESET, GPIO_PIN_SET].flatMap (fun level =>
          setClock bus GPIO_PIN_RESET ++ setData bus level ++ setClock bus GPIO_PIN_SET)
        ++ txAckSlot bus (samples w.reads) := by
  constructor
  · rw [soft_i2c_write_byte_eq]
    simp [txOps, txPulse, List.append_assoc]
  · rw [soft_i2c_write_byte_eq]
    simp [txOps, txPulse, levelOfBit, List.range_succ, List.append_assoc, Nat.testBit,
      Nat.shiftRight_eq_div_pow]

/-- C7: for every state and every sampled input, `soft_i2c_read_byte` releases the data
line, runs eight read bit-slots (clock low, clock high, one sample), and then, in the
acknowledgement slot, writes clock low, data low when `ack` is true and high when it is
false, clock high, clock low, and finally data high; no other pin operation occurs, so the
level is set while the clock is low, is held across the ninth clock pulse, and the call
ends with the data line released and the clock low. -/
theorem soft_i2c_read_byte_ack_slot (samples : Nat → GPIO_PinState) (bus : soft_i2c_bus_t)
    (ack : Bool) (w : Wire) :
    (soft_i2c_read_byte samples bus ack w).2.ops =
      w.ops ++ setData bus GPIO_PIN_SET
        ++ (List.range 8).flatMap (fun j =>
          setClock bus GPIO_PIN_RESET ++ setClock bus GPIO_PIN_SET
            ++ sampleData bus (samples (w.reads + j)))
        ++ (setClock bus GPIO_PIN_RESET
          ++ setData bus (if ack then GPIO_PIN_RESET else GPIO_PIN_SET)
          ++ setClock bus GPIO_PIN_SET ++ setClock bus GPIO_PIN_RESET
          ++ setData bus GPIO_PIN_SET) := by
  rw [soft_i2c_read_byte_eq]
  simp [rxOps, rxPulse, rxAckSlot, List.append_assoc]

/-! ## Address framing -/

theorem soft_i2c_write_frames_head (samples : Nat → GPIO_PinState) (bus : soft_i2c_bus_t)
    (address : Nat) (data : Option (List Nat)) (length : Nat) (w : Wire)
    (hvalid : ¬ (length > 0 ∧ data = none)) :
    ∃ acked rest, (soft_i2c_write samples (some bus) address data length w).2.frames =
      w.frames ++ Frame.start :: Frame.tx (address % 256 - address % 2) acked :: rest := by
  unfold soft_i2c_write
  simp only [hvalid, if_false, soft_i2c_start_eq, soft_i2c_write_byte_eq, write_address_byte]
  by_cases h0 : samples w.reads = GPIO_PIN_RESET
  · simp only [h0, decide_True, Bool.not_true, Bool.false_eq_true, if_false]
    obtain ⟨rest, hrest⟩ := soft_i2c_tx_loop_frames samples bus (data.getD []) length 0
      ⟨w.ops ++ startOps bus ++ txOps bus (address % 256 - address % 2) GPIO_PIN_RESET,
        w.frames ++ [Frame.start] ++ [Frame.tx (address % 256 - address % 2) true], w.reads + 1⟩
    by_cases hl : (soft_i2c_tx_loop samples bus (data.getD []) length 0
        ⟨w.ops ++ startOps bus ++ txOps bus (address % 256 - address % 2) GPIO_PIN_RESET,
          w.frames ++ [Frame.start] ++ [Frame.tx (address % 256 - address % 2) true],
          w.reads + 1⟩).1 = true
    · simp only [hl, Bool.not_true, Bool.false_eq_true, if_false, soft_i2c_stop_eq, hrest]
      exact ⟨true, rest ++ [Frame.stop], by simp⟩
    · simp only [hl, Bool.not_false, if_true, hrest]
      exact ⟨true, rest, by simp⟩
  · simp only [h0, decide_False, Bool.not_false, if_true, soft_i2c_stop_eq]
    exact ⟨false, [Frame.stop], by simp⟩

/-- C8, as the claim states it, fails: called with the raw 7-bit address 3 the driver
transmits the byte 2 right after the start, not `2 * 3`. -/
theorem soft_i2c_write_address_not_shifted :
    ¬ ∃ acked rest,
      (soft_i2c_write (fun _ => GPIO_PIN_RESET) (some ⟨1, 6, 1, 7, 1⟩) 3 none 0
        ⟨[], [], 0⟩).2.frames = Frame.start :: Frame.tx (2 * 3) acked :: rest := by
  have h : (soft_i2c_write (fun _ => GPIO_PIN_RESET) (some ⟨1, 6, 1, 7, 1⟩) 3 none 0
      ⟨[], [], 0⟩).2.frames = [Frame.start, Frame.tx 2 true, Frame.stop] := by decide
  rintro ⟨acked, rest, h'⟩
  rw [h] at h'
  simp at h'

/-- C8, amended: `soft_i2c_write` applies no shift.  For every address argument the byte
transmitted right after the start condition is the argument's low 8 bits with bit 0
cleared; so for a 7-bit address `a` the byte is `2 * a` when the caller passes the already
left-shifted value `2 * a` as the address argument. -/
theorem soft_i2c_write_address_byte (samples : Nat → GPIO_PinState) (bus : soft_i2c_bus_t)
    (address : Nat) (data : Option (List Nat)) (length : Nat) (w : Wire) (a : Nat)
    (hvalid : ¬ (length > 0 ∧ data = none)) (ha : a < 128) :
    (∃ acked rest, (soft_i2c_write samples (some bus) address data length w).2.frames =
      w.frames ++ Frame.start :: Frame.tx (address % 256 - address % 2) acked :: rest) ∧
    (∃ acked rest, (soft_i2c_write samples (some bus) (2 * a) data length w).2.frames =
      w.frames ++ Frame.start :: Frame.tx (2 * a) acked :: rest) := by
  refine ⟨soft_i2c_write_frames_head samples bus address data length w hvalid, ?_⟩
  have h := soft_i2c_write_frames_head samples bus (2 * a) data length w hvalid
  have e : 2 * a % 256 - 2 * a % 2 = 2 * a := by omega
  rw [e] at h
  exact h

/-- Witness for the amended C8: 7-bit address `0x40` passed pre-shifted as `0x80`, and the
raw argument 3, which is sent as 2. -/
theorem soft_i2c_write_address_byte_witness :
    (∃ acked rest, (soft_i2c_write (fun _ => GPIO_PIN_RESET) (some ⟨1, 6, 1, 7, 1⟩) 3
        (some [0xA5]) 1 ⟨[], [], 0⟩).2.frames =
      [] ++ Frame.start :: Frame.tx 2 acked :: rest) ∧
    (∃ acked rest, (soft_i2c_write (fun _ => GPIO_PIN_RESET) (some ⟨1, 6, 1, 7, 1⟩) (2 * 0x40)
        (some [0xA5]) 1 ⟨[], [], 0⟩).2.frames =
      [] ++ Frame.start :: Frame.tx (2 * 0x40) acked :: rest) :=
  soft_i2c_write_address_byte (fun _ => GPIO_PIN_RESET) ⟨1, 6, 1, 7, 1⟩ 3 (some [0xA5]) 1
    ⟨[], [], 0⟩ 0x40 (by decide) (by decide)

/-! ## Stop on every path, rejection of malformed input -/

/-- C9: from any starting state, a call of `soft_i2c_write` or of
`soft_i2c_write_then_read` that performs at least one pin operation ends, whatever it
returns, with a stop condition as its last activity: the trace ends with the stop sequence,
the last primitive called is the stop, and the last level written to the clock pin and to
the data pin is high.  This covers every `false` returned after a missing
acknowledgement. -/
theorem transaction_ends_with_stop (samples : Nat → GPIO_PinState) (bus : soft_i2c_bus_t)
    (address : Nat) (data : Option (List Nat)) (length : Nat)
    (tx_data : Option (List Nat)) (tx_length : Nat) (rx_data : Option (List Nat))
    (rx_length : Nat) (w : Wire) :
    ((soft_i2c_write samples (some bus) address data length w).2.ops ≠ w.ops →
      EndsIdle bus (soft_i2c_write samples (some bus) address data length w).2) ∧
    ((soft_i2c_write_then_read samples (some bus) address tx_data tx_length rx_data rx_length
        w).wire.ops ≠ w.ops →
      EndsIdle bus (soft_i2c_write_then_read samples (some bus) address tx_data tx_length
        rx_data rx_length w).wire) := by
  constructor
  · intro hact
    unfold soft_i2c_write at hact ⊢
    dsimp only at hact ⊢
    by_cases hg : length > 0 ∧ data = none
    · rw [if_pos hg] at hact
      exact absurd rfl hact
    · simp only [hg, if_false]
      by_cases h0 : (soft_i2c_write_byte samples bus ((address &&& 0xFE) % 256)
          (soft_i2c_start bus w)).1 = true
      · simp only [h0, Bool.not_true, Bool.false_eq_true, if_false]
        by_cases hl : (soft_i2c_tx_loop samples bus (data.getD []) length 0
            (soft_i2c_write_byte samples bus ((address &&& 0xFE) % 256)
              (soft_i2c_start bus w)).2).1 = true
        · simp only [hl, Bool.not_true, Bool.false_eq_true, if_false]
          exact endsIdle_stop bus _
        · simp only [hl, Bool.not_false, if_true]
          obtain ⟨w', hw'⟩ := soft_i2c_tx_loop_false_stop _ _ _ _ _ _ (Bool.eq_false_iff.2 hl)
          rw [hw']
          exact endsIdle_stop bus _
      · simp only [h0, Bool.not_false, if_true]
        exact endsIdle_stop bus _
  · intro hact
    unfold soft_i2c_write_then_read at hact ⊢
    dsimp only at hact ⊢
    by_cases hg1 : tx_length = 0 ∧ rx_length = 0
    · rw [if_pos hg1] at hact
      exact absurd rfl hact
    rw [if_neg hg1] at hact ⊢
    by_cases hg2 : tx_length > 0 ∧ tx_data = none
    · rw [if_pos hg2] at hact
      exact absurd rfl hact
    rw [if_neg hg2] at hact ⊢
    by_cases hg3 : rx_length > 0 ∧ rx_data = none
    · rw [if_pos hg3] at hact
      exact absurd rfl hact
    rw [if_neg hg3]
    by_cases hp : (soft_i2c_write_then_read_tx samples bus address tx_data tx_length w).1 = true
    · simp only [hp, Bool.not_true, Bool.false_eq_true, if_false]
      obtain ⟨w', hw'⟩ := soft_i2c_write_then_read_rx_stop samples bus address rx_data rx_length
        (soft_i2c_write_then_read_tx samples bus address tx_data tx_length w).2
      rw [hw']
      exact endsIdle_stop bus _
    · simp only [hp, Bool.not_false, if_true]
      obtain ⟨w', hw'⟩ := soft_i2c_write_then_read_tx_false_stop _ _ _ _ _ _
        (Bool.eq_false_iff.2 hp)
      rw [hw']
      exact endsIdle_stop bus _

set_option maxRecDepth 100000 in
/-- Witness for C9: a write whose address byte is not acknowledged, and a combined
transaction whose read-direction address byte is not acknowledged, both started with the
clock and data pins last written low. -/
theorem transaction_ends_with_stop_witness :
    EndsIdle ⟨1, 6, 1, 7, 1⟩
      (soft_i2c_write (fun _ => GPIO_PIN_SET) (some ⟨1, 6, 1, 7, 1⟩) 0x80 (some [0xA5]) 1
        ⟨[HalOp.writePin 1 6 GPIO_PIN_RESET, HalOp.writePin 1 7 GPIO_PIN_RESET], [], 0⟩).2 ∧
    EndsIdle ⟨1, 6, 1, 7, 1⟩
      (soft_i2c_write_then_read (fun k => if k = 2 then GPIO_PIN_SET else GPIO_PIN_RESET)
        (some ⟨1, 6, 1, 7, 1⟩) 0x80 (some [0x01]) 1 (some [0, 0]) 2
        ⟨[HalOp.writePin 1 6 GPIO_PIN_RESET, HalOp.writePin 1 7 GPIO_PIN_RESET], [], 0⟩).wire :=
  ⟨(transaction_ends_with_stop (fun _ => GPIO_PIN_SET) ⟨1, 6, 1, 7, 1⟩ 0x80 (some [0xA5]) 1
      (some [0x01]) 1 (some [0, 0]) 2
      ⟨[HalOp.writePin 1 6 GPIO_PIN_RESET, HalOp.writePin 1 7 GPIO_PIN_RESET], [], 0⟩).1
      (by decide),
    (transaction_ends_with_stop (fun k => if k = 2 then GPIO_PIN_SET else GPIO_PIN_RESET)
      ⟨1, 6, 1, 7, 1⟩ 0x80 (some [0xA5]) 1 (some [0x01]) 1 (some [0, 0]) 2
      ⟨[HalOp.writePin 1 6 GPIO_PIN_RESET, HalOp.writePin 1 7 GPIO_PIN_RESET], [], 0⟩).2
      (by decide)⟩

/-- C10: malformed input is rejected before any bus activity.  On a non-null bus,
`soft_i2c_write` with `length > 0` and a null `data`, and `soft_i2c_write_then_read` with
`tx_length > 0` and a null `tx_data`, or with `rx_length > 0` and a null `rx_data`, return
`false` and leave the execution state (trace, primitives called, samples taken) and the
receive buffer as they were; with a null bus both functions do so for all arguments. -/
theorem malformed_input_rejected (samples : Nat → GPIO_PinState) (bus : soft_i2c_bus_t)
    (address : Nat) (data tx_data rx_data : Option (List Nat))
    (length tx_length rx_length : Nat) (w : Wire) :
    (0 < length → soft_i2c_write samples (some bus) address none length w = (false, w)) ∧
    (0 < tx_length →
      soft_i2c_write_then_read samples (some bus) address none tx_length rx_data rx_length w =
        ⟨false, w, rx_data⟩) ∧
    (0 < rx_length →
      soft_i2c_write_then_read samples (some bus) address tx_data tx_length none rx_length w =
        ⟨false, w, none⟩) ∧
    soft_i2c_write samples none address data length w = (false, w) ∧
    soft_i2c_write_then_read samples none address tx_data tx_length rx_data rx_length w =
      ⟨false, w, rx_data⟩ := by
  refine ⟨?_, ?_, ?_, rfl, rfl⟩
  · intro h
    simp [soft_i2c_write, h]
  · intro h
    have h1 : ¬ (tx_length = 0 ∧ rx_length = 0) := by omega
    simp [soft_i2c_write_then_read, h, h1]
  · intro h
    have h1 : ¬ (tx_length = 0 ∧ rx_length = 0) := by omega
    simp only [soft_i2c_write_then_read, h1, if_false]
    by_cases h2 : tx_length > 0 ∧ tx_data = none
    · rw [if_pos h2]
    · rw [if_neg h2]
      simp [h]

/-- Witness for C10: lengths 2, 1 and 3 with the corresponding buffer pointer null. -/
theorem malformed_input_rejected_witness :
    soft_i2c_write (fun _ => GPIO_PIN_RESET) (some ⟨1, 6, 1, 7, 1⟩) 0x80 none 2 ⟨[], [], 0⟩ =
      (false, ⟨[], [], 0⟩) ∧
    soft_i2c_write_then_read (fun _ => GPIO_PIN_RESET) (some ⟨1, 6, 1, 7, 1⟩) 0x80 none 1
      (some [0, 0, 0]) 3 ⟨[], [], 0⟩ = ⟨false, ⟨[], [], 0⟩, some [0, 0, 0]⟩ ∧
    soft_i2c_write_then_read (fun _ => GPIO_PIN_RESET) (some ⟨1, 6, 1, 7, 1⟩) 0x80 (some [0x01])
      1 none 3 ⟨[], [], 0⟩ = ⟨false, ⟨[], [], 0⟩, none⟩ :=
  ⟨(malformed_input_rejected (fun _ => GPIO_PIN_RESET) ⟨1, 6, 1, 7, 1⟩ 0x80 none (some [0x01])
      (some [0, 0, 0]) 2 1 3 ⟨[], [], 0⟩).1 (by decide),
    (malformed_input_rejected (fun _ => GPIO_PIN_RESET) ⟨1, 6, 1, 7, 1⟩ 0x80 none (some [0x01])
      (some [0, 0, 0]) 2 1 3 ⟨[], [], 0⟩).2.1 (by decide),
    (malformed_input_rejected (fun _ => GPIO_PIN_RESET) ⟨1, 6, 1, 7, 1⟩ 0x80 none (some [0x01])
      (some [0, 0, 0]) 2 1 3 ⟨[], [], 0⟩).2.2.1 (by decide)⟩

/-! ## Failure in the write phase, all-or-nothing reads, pure reads -/

/-- C11: with a non-empty `tx` of length `m` and any `rx_length` (the call not being
rejected for a null receive buffer), when transmitted byte number `k` of the write phase
(0 is the write-direction address byte, `1..m` the `tx` bytes) is the first whose
acknowledgement sample is high, `soft_i2c_write_then_read` transmits exactly bytes `0..k`,
emits a stop and returns `false` with the receive buffer untouched; the primitives called
are one start, these transmits and one stop, so there is no second start, no
read-direction address byte and no receive-byte call, and exactly `k + 1` samples are
taken. -/
theorem soft_i2c_write_then_read_tx_nack (samples : Nat → GPIO_PinState)
    (bus : soft_i2c_bus_t) (address : Nat) (tx_data : Option (List Nat)) (m : Nat)
    (rx_data : Option (List Nat)) (n : Nat) (w : Wire) (k : Nat)
    (hm : 0 < m) (hmlen : m ≤ (tx_data.getD []).length) (hrx : ¬ (n > 0 ∧ rx_data = none))
    (hk : k ≤ m)
    (hack : ∀ j, j < k → samples (w.reads + j) = GPIO_PIN_RESET)
    (hnack : samples (w.reads + k) = GPIO_PIN_SET) :
    let bytes := (address % 256 - address % 2) :: (tx_data.getD []).take m
    soft_i2c_write_then_read samples (some bus) address tx_data m rx_data n w =
      ⟨false,
        ⟨w.ops ++ startOps bus
            ++ (bytes.take k).flatMap (fun b => txOps bus b GPIO_PIN_RESET)
            ++ txOps bus (bytes.getD k 0) GPIO_PIN_SET ++ stopOps bus,
          w.frames ++ [Frame.start] ++ (bytes.take k).map (fun b => Frame.tx b true)
            ++ [Frame.tx (bytes.getD k 0) false, Frame.stop],
          w.reads + k + 1⟩,
        rx_data⟩ := by
  intro bytes
  have hg1 : ¬ (m = 0 ∧ n = 0) := by omega
  have hg2 : ¬ (m > 0 ∧ tx_data = none) := by
    rintro ⟨_, rfl⟩
    simp at hmlen
    omega
  have hmpos : m > 0 := hm
  unfold soft_i2c_write_then_read soft_i2c_write_then_read_tx
  simp only [hg1, hg2, hrx, if_false]
  simp only [hmpos, if_true, soft_i2c_start_eq, soft_i2c_write_byte_eq]
  cases k with
  | zero =>
    have h0 : samples w.reads = GPIO_PIN_SET := by simpa using hnack
    simp [h0, soft_i2c_stop_eq, bytes, write_address_byte, List.append_assoc]
  | succ k =>
    have h0 : samples w.reads = GPIO_PIN_RESET := by simpa using hack 0 (Nat.succ_pos k)
    have hklen : k ≤ (tx_data.getD []).length := by omega
    have htail : ∀ j, j < k → samples (w.reads + 1 + j) = GPIO_PIN_RESET := by
      intro j hj
      have := hack (j + 1) (Nat.succ_lt_succ hj)
      simpa [Nat.add_assoc, Nat.add_comm 1 j] using this
    have hn : samples (w.reads + 1 + k) = GPIO_PIN_SET := by
      simpa [Nat.add_assoc, Nat.add_comm 1 k] using hnack
    have hget : ((tx_data.getD []).take m)[k]? = (tx_data.getD [])[k]? := by
      have h1 : k < m := hk
      simp [List.getElem?_take, h1]
    have htake : ((tx_data.getD []).take m).take k = (tx_data.getD []).take k := by
      rw [List.take_take, Nat.min_eq_left (by omega)]
    simp only [h0, decide_True, Bool.not_true, Bool.false_eq_true, if_false]
    rw [soft_i2c_tx_loop_nack samples bus (tx_data.getD []) m 0 _ k hk htail hn]
    simp only [Bool.not_false, if_true, write_address_byte, Nat.zero_add,
      List.getD_eq_getElem?_getD, range_map_tx_eq_take _ _ hklen,
      range_flatMap_tx_eq_take _ _ _ hklen]
    simp [bytes, hget, htake, List.append_assoc, Nat.add_assoc, Nat.add_comm 1 k]

/-- Witness for C11: `tx = [0x01, 0x02]`, `rx_length = 2`, the first `tx` byte (index 1 of
the transmitted bytes) is not acknowledged. -/
theorem soft_i2c_write_then_read_tx_nack_witness :
    (soft_i2c_write_then_read (fun k => if k = 1 then GPIO_PIN_SET else GPIO_PIN_RESET)
        (some ⟨1, 6, 1, 7, 1⟩) 0x80 (some [0x01, 0x02]) 2 (some [9, 9]) 2 ⟨[], [], 0⟩).ok
      = false ∧
    (soft_i2c_write_then_read (fun k => if k = 1 then GPIO_PIN_SET else GPIO_PIN_RESET)
        (some ⟨1, 6, 1, 7, 1⟩) 0x80 (some [0x01, 0x02]) 2 (some [9, 9]) 2
        ⟨[], [], 0⟩).wire.frames =
      [Frame.start, Frame.tx 0x80 true, Frame.tx 0x01 false, Frame.stop] ∧
    (soft_i2c_write_then_read (fun k => if k = 1 then GPIO_PIN_SET else GPIO_PIN_RESET)
        (some ⟨1, 6, 1, 7, 1⟩) 0x80 (some [0x01, 0x02]) 2 (some [9, 9]) 2
        ⟨[], [], 0⟩).rx_data = some [9, 9] := by
  have h := soft_i2c_write_then_read_tx_nack
    (fun k => if k = 1 then GPIO_PIN_SET else GPIO_PIN_RESET)
    ⟨1, 6, 1, 7, 1⟩ 0x80 (some [0x01, 0x02]) 2 (some [9, 9]) 2 ⟨[], [], 0⟩ 1
    (by decide) (by decide) (by simp) (by decide)
    (fun j hj => by
      have : j ≠ 1 := Nat.ne_of_lt hj
      simp [this])
    (by simp)
  simp only at h
  refine ⟨?_, ?_, ?_⟩
  · rw [h]
  · rw [h]
    rfl
  · rw [h]

theorem soft_i2c_write_then_read_rx_false (samples : Nat → GPIO_PinState)
    (bus : soft_i2c_bus_t) (address : Nat) (rx_data : Option (List Nat)) (rx_length : Nat)
    (w : Wire)
    (hok : (soft_i2c_write_then_read_rx samples bus address rx_data rx_length w).ok = false) :
    (soft_i2c_write_then_read_rx samples bus address rx_data rx_length w).rx_data = rx_data := by
  unfold soft_i2c_write_then_read_rx at hok ⊢
  by_cases hn : rx_length > 0
  · simp only [hn, if_true] at hok ⊢
    by_cases h0 : (soft_i2c_write_byte samples bus ((address ||| 0x01) % 256)
        (soft_i2c_start bus w)).1 = true
    · simp [h0] at hok
    · simp [h0]
  · simp [hn]

theorem soft_i2c_write_then_read_rx_true (samples : Nat → GPIO_PinState)
    (bus : soft_i2c_bus_t) (address : Nat) (rx_data : Option (List Nat)) (rx_length : Nat)
    (w : Wire) (hn : 0 < rx_length)
    (hok : (soft_i2c_write_then_read_rx samples bus address rx_data rx_length w).ok = true) :
    ∃ w', w'.reads = w.reads + 1 ∧
      (soft_i2c_write_then_read_rx samples bus address rx_data rx_length w).rx_data =
        some (soft_i2c_rx_loop samples bus rx_length rx_length 0 (rx_data.getD []) w').1 := by
  have hnpos : rx_length > 0 := hn
  unfold soft_i2c_write_then_read_rx at hok ⊢
  simp only [hnpos, if_true, soft_i2c_start_eq, soft_i2c_write_byte_eq] at hok ⊢
  by_cases h0 : samples w.reads = GPIO_PIN_RESET
  · simp only [h0, decide_True, Bool.not_true, Bool.false_eq_true, if_false]
    exact ⟨_, rfl, rfl⟩
  · simp [h0] at hok

/-- C12: reads are all-or-nothing.  Whenever `soft_i2c_write_then_read` returns `false`
(null bus, malformed arguments, a missing acknowledgement in the write phase or of the
read-direction address byte) the receive buffer is exactly as before the call.  Whenever it
returns `true` with `rx_length = n` (and a buffer of at least `n` elements), every element
`rx_data[i]`, `i < n`, holds the byte received by receive-byte call `i`, and the elements
from index `n` on are unchanged. -/
theorem soft_i2c_write_then_read_all_or_nothing (samples : Nat → GPIO_PinState)
    (bus : Option soft_i2c_bus_t) (address : Nat) (tx_data : Option (List Nat))
    (tx_length : Nat) (rx_data : Option (List Nat)) (n : Nat) (w : Wire) :
    ((soft_i2c_write_then_read samples bus address tx_data tx_length rx_data n w).ok = false →
      (soft_i2c_write_then_read samples bus address tx_data tx_length rx_data n w).rx_data
        = rx_data) ∧
    ((soft_i2c_write_then_read samples bus address tx_data tx_length rx_data n w).ok = true →
      n ≤ (rx_data.getD []).length →
      (∀ i, i < n → ∃ out,
        (soft_i2c_write_then_read samples bus address tx_data tx_length rx_data n w).rx_data
          = some out ∧
        out[i]? = some (rxValue samples
          (w.reads + (if tx_length > 0 then tx_length + 1 else 0) + 1 + 8 * i))) ∧
      (∀ i, n ≤ i →
        ((soft_i2c_write_then_read samples bus address tx_data tx_length rx_data n w).rx_data.getD
          [])[i]? = (rx_data.getD [])[i]?)) := by
  cases bus with
  | none => simp [soft_i2c_write_then_read]
  | some bus =>
    unfold soft_i2c_write_then_read
    dsimp only
    by_cases hg1 : tx_length = 0 ∧ n = 0
    · rw [if_pos hg1]
      constructor
      · intro _
        rfl
      · intro _ _
        constructor
        · intro i hi
          omega
        · intro i _
          rfl
    rw [if_neg hg1]
    by_cases hg2 : tx_length > 0 ∧ tx_data = none
    · rw [if_pos hg2]
      constructor
      · intro _
        rfl
      · intro h
        exact absurd h (by simp)
    rw [if_neg hg2]
    by_cases hg3 : n > 0 ∧ rx_data = none
    · rw [if_pos hg3]
      constructor
      · intro _
        rfl
      · intro h
        exact absurd h (by simp)
    rw [if_neg hg3]
    by_cases hp : (soft_i2c_write_then_read_tx samples bus address tx_data tx_length w).1 = true
    · have hreads := soft_i2c_write_then_read_tx_ok_reads _ _ _ _ _ _ hp
      simp only [hp, Bool.not_true, Bool.false_eq_true, if_false]
      refine ⟨soft_i2c_write_then_read_rx_false _ _ _ _ _ _, fun hok hlen => ?_⟩
      by_cases hn : 0 < n
      · obtain ⟨w', hw', hout⟩ := soft_i2c_write_then_read_rx_true _ _ _ _ _ _ hn hok
        rw [hout]
        refine ⟨fun i hi => ⟨_, rfl, ?_⟩, fun i hi => ?_⟩
        · rw [soft_i2c_rx_loop_buffer]
          have hcond : 0 ≤ i ∧ i < 0 + n ∧ i < (rx_data.getD []).length := by omega
          rw [if_pos hcond, hw', hreads]
          simp
        · rw [Option.getD_some, soft_i2c_rx_loop_buffer]
          have hcond : ¬ (0 ≤ i ∧ i < 0 + n ∧ i < (rx_data.getD []).length) := by omega
          rw [if_neg hcond]
      · have hn0 : n = 0 := by omega
        subst hn0
        refine ⟨fun i hi => absurd hi (Nat.not_lt_zero i), fun i _ => ?_⟩
        simp [soft_i2c_write_then_read_rx]
    · simp [hp]

/-- Witness for C12: a combined transaction whose read-direction address byte is not
acknowledged leaves the buffer `[9, 9]` as it was; the fully acknowledged one of C4 stores
`0x81` and `0x02`. -/
theorem soft_i2c_write_then_read_all_or_nothing_witness :
    (soft_i2c_write_then_read (fun k => if k = 2 then GPIO_PIN_SET else GPIO_PIN_RESET)
        (some ⟨1, 6, 1, 7, 1⟩) 0x80 (some [0x01]) 1 (some [9, 9]) 2 ⟨[], [], 0⟩).rx_data
      = some [9, 9] ∧
    (∀ i, i < 2 → ∃ out,
      (soft_i2c_write_then_read
        (fun k => if k = 3 ∨ k = 10 ∨ k = 17 then GPIO_PIN_SET else GPIO_PIN_RESET)
        (some ⟨1, 6, 1, 7, 1⟩) 0x80 (some [0x01]) 1 (some [9, 9]) 2 ⟨[], [], 0⟩).rx_data
        = some out ∧
      out[i]? = some (rxValue
        (fun k => if k = 3 ∨ k = 10 ∨ k = 17 then GPIO_PIN_SET else GPIO_PIN_RESET)
        (0 + (if 1 > 0 then 1 + 1 else 0) + 1 + 8 * i))) :=
  ⟨(soft_i2c_write_then_read_all_or_nothing
      (fun k => if k = 2 then GPIO_PIN_SET else GPIO_PIN_RESET)
      (some ⟨1, 6, 1, 7, 1⟩) 0x80 (some [0x01]) 1 (some [9, 9]) 2 ⟨[], [], 0⟩).1 (by decide),
    ((soft_i2c_write_then_read_all_or_nothing
      (fun k => if k = 3 ∨ k = 10 ∨ k = 17 then GPIO_PIN_SET else GPIO_PIN_RESET)
      (some ⟨1, 6, 1, 7, 1⟩) 0x80 (some [0x01]) 1 (some [9, 9]) 2 ⟨[], [], 0⟩).2
      (by decide) (by decide)).1⟩

/-- C13: with `tx_length = 0` and `rx_length = n ≥ 1` (any `tx_data` pointer, a non-null
receive buffer) and the address acknowledged, `soft_i2c_write_then_read` skips the write
phase: the primitives called are exactly one start, the transmit of the read-direction
address byte (bit 0 set), `n` receive-byte calls of which call `i` has `ack = true` iff
`i + 1 < n`, and one stop; the pin-level trace is the concatenation of their traces.  No
write-direction address byte is transmitted and the start is the only one. -/
theorem soft_i2c_write_then_read_pure_read (samples : Nat → GPIO_PinState)
    (bus : soft_i2c_bus_t) (address : Nat) (tx_data rx_data : Option (List Nat)) (n : Nat)
    (w : Wire) (hn : 0 < n) (hrx : rx_data ≠ none)
    (hack : samples w.reads = GPIO_PIN_RESET) :
    (soft_i2c_write_then_read samples (some bus) address tx_data 0 rx_data n w).ok = true ∧
    (soft_i2c_write_then_read samples (some bus) address tx_data 0 rx_data n w).wire.frames =
      w.frames ++ [Frame.start, Frame.tx (address % 256 - address % 2 + 1) true]
        ++ (List.range n).map
            (fun i => Frame.rx (decide (i + 1 < n)) (rxValue samples (w.reads + 1 + 8 * i)))
        ++ [Frame.stop] ∧
    (soft_i2c_write_then_read samples (some bus) address tx_data 0 rx_data n w).wire.ops =
      w.ops ++ startOps bus ++ txOps bus (address % 256 - address % 2 + 1) GPIO_PIN_RESET
        ++ (List.range n).flatMap
            (fun i => rxOps samples bus (decide (i + 1 < n)) (w.reads + 1 + 8 * i))
        ++ stopOps bus ∧
    ((soft_i2c_write_then_read samples (some bus) address tx_data 0 rx_data n
      w).wire.frames.drop w.frames.length).count Frame.start = 1 := by
  have hg1 : ¬ ((0 : Nat) = 0 ∧ n = 0) := by omega
  have hg2 : ¬ ((0 : Nat) > 0 ∧ tx_data = none) := by simp
  have hg3 : ¬ (n > 0 ∧ rx_data = none) := fun h => hrx h.2
  have hm : ¬ ((0 : Nat) > 0) := by simp
  have hnpos : n > 0 := hn
  have hn0 : ¬ (n = 0) := by omega
  unfold soft_i2c_write_then_read soft_i2c_write_then_read_tx soft_i2c_write_then_read_rx
  simp only [true_and, hn0, hg3, if_false]
  simp only [hm, false_and, hnpos, if_true, if_false, Bool.not_true, Bool.false_eq_true,
    soft_i2c_start_eq, soft_i2c_write_byte_eq, hack, decide_True, soft_i2c_rx_loop_wire,
    soft_i2c_stop_eq, read_address_byte, Nat.zero_add]
  refine ⟨trivial, by simp [List.append_assoc], by simp [List.append_assoc], ?_⟩
  simp [List.count_cons, List.count_append, List.count_eq_zero]

/-- Witness for C13: a pure read of two bytes with the address acknowledged. -/
theorem soft_i2c_write_then_read_pure_read_witness :
    (soft_i2c_write_then_read
        (fun k => if k = 1 ∨ k = 8 ∨ k = 15 then GPIO_PIN_SET else GPIO_PIN_RESET)
        (some ⟨1, 6, 1, 7, 1⟩) 0x80 none 0 (some [0, 0]) 2 ⟨[], [], 0⟩).wire.frames =
      [Frame.start, Frame.tx 0x81 true, Frame.rx true 0x81, Frame.rx false 0x02,
        Frame.stop] := by
  have h := soft_i2c_write_then_read_pure_read
    (fun k => if k = 1 ∨ k = 8 ∨ k = 15 then GPIO_PIN_SET else GPIO_PIN_RESET)
    ⟨1, 6, 1, 7, 1⟩ 0x80 none (some [0, 0]) 2 ⟨[], [], 0⟩ (by decide) (by simp) (by simp)
  rw [h.2.1]
  simp [rxValue, bitOfLevel, Finset.sum_range_succ, List.range_succ]

/-! ## Acknowledgement sampling, start and stop shapes, address bytes -/

theorem lastWritten_setClock (bus : soft_i2c_bus_t) (pre : List HalOp) (state : GPIO_PinState) :
    lastWritten bus.scl_port bus.scl_pin (pre ++ setClock bus state) = some state := by
  rw [lastWritten_append]
  simp [setClock, lastWritten]

/-- C16: for every byte, `soft_i2c_write_byte`, after its eight data pulses, writes clock
low, data high (release), clock high, samples the data line once (sample number
`w.reads`, the only sample of the call), and writes clock low; it returns `true` exactly
when that sample is low, and the last level written to the clock pin on return is low
whatever the result. -/
theorem soft_i2c_write_byte_ack_sample (samples : Nat → GPIO_PinState) (bus : soft_i2c_bus_t)
    (byte : Nat) (w : Wire) :
    (soft_i2c_write_byte samples bus byte w).2.ops =
      w.ops ++ (List.range 8).flatMap (fun j => txPulse bus (levelOfBit (byte.testBit (7 - j))))
        ++ (setClock bus GPIO_PIN_RESET ++ setData bus GPIO_PIN_SET ++ setClock bus GPIO_PIN_SET
          ++ [HalOp.readPin bus.sda_port bus.sda_pin (samples w.reads)]
          ++ setClock bus GPIO_PIN_RESET) ∧
    (soft_i2c_write_byte samples bus byte w).2.reads = w.reads + 1 ∧
    ((soft_i2c_write_byte samples bus byte w).1 = true ↔ samples w.reads = GPIO_PIN_RESET) ∧
    lastWritten bus.scl_port bus.scl_pin (soft_i2c_write_byte samples bus byte w).2.ops =
      some GPIO_PIN_RESET := by
  rw [soft_i2c_write_byte_eq]
  refine ⟨?_, rfl, by simp, ?_⟩
  · simp [txOps, txAckSlot, sampleData, List.append_assoc]
  · have h : w.ops ++ txOps bus byte (samples w.reads) =
        (w.ops ++ (List.range 8).flatMap
            (fun j => txPulse bus (levelOfBit (byte.testBit (7 - j))))
          ++ setClock bus GPIO_PIN_RESET ++ setData bus GPIO_PIN_SET
          ++ setClock bus GPIO_PIN_SET ++ sampleData bus (samples w.reads))
          ++ setClock bus GPIO_PIN_RESET := by
      simp [txOps, txAckSlot, List.append_assoc]
    simp only [h]
    exact lastWritten_setClock bus _ _

/-- C17: `soft_i2c_start` emits exactly the writes data high, clock high, data low, clock
low and `soft_i2c_stop` exactly data low, clock high, data high, each write followed by one
settle delay.  At the data line's falling write in the start, and at its rising write in
the stop, the last level written to the clock pin is high. -/
theorem soft_i2c_start_stop_shape (bus : soft_i2c_bus_t) (w : Wire) :
    (soft_i2c_start bus w).ops =
      (w.ops ++ [HalOp.writePin bus.sda_port bus.sda_pin GPIO_PIN_SET,
          HalOp.delay (soft_i2c_delay_cycles (some bus)),
          HalOp.writePin bus.scl_port bus.scl_pin GPIO_PIN_SET,
          HalOp.delay (soft_i2c_delay_cycles (some bus))])
        ++ [HalOp.writePin bus.sda_port bus.sda_pin GPIO_PIN_RESET,
          HalOp.delay (soft_i2c_delay_cycles (some bus)),
          HalOp.writePin bus.scl_port bus.scl_pin GPIO_PIN_RESET,
          HalOp.delay (soft_i2c_delay_cycles (some bus))] ∧
    lastWritten bus.scl_port bus.scl_pin
      (w.ops ++ [HalOp.writePin bus.sda_port bus.sda_pin GPIO_PIN_SET,
          HalOp.delay (soft_i2c_delay_cycles (some bus)),
          HalOp.writePin bus.scl_port bus.scl_pin GPIO_PIN_SET,
          HalOp.delay (soft_i2c_delay_cycles (some bus))]) = some GPIO_PIN_SET ∧
    (soft_i2c_stop bus w).ops =
      (w.ops ++ [HalOp.writePin bus.sda_port bus.sda_pin GPIO_PIN_RESET,
          HalOp.delay (soft_i2c_delay_cycles (some bus)),
          HalOp.writePin bus.scl_port bus.scl_pin GPIO_PIN_SET,
          HalOp.delay (soft_i2c_delay_cycles (some bus))])
        ++ [HalOp.writePin bus.sda_port bus.sda_pin GPIO_PIN_SET,
          HalOp.delay (soft_i2c_delay_cycles (some bus))] ∧
    lastWritten bus.scl_port bus.scl_pin
      (w.ops ++ [HalOp.writePin bus.sda_port bus.sda_pin GPIO_PIN_RESET,
          HalOp.delay (soft_i2c_delay_cycles (some bus)),
          HalOp.writePin bus.scl_port bus.scl_pin GPIO_PIN_SET,
          HalOp.delay (soft_i2c_delay_cycles (some bus))]) = some GPIO_PIN_SET := by
  refine ⟨?_, ?_, ?_, ?_⟩
  · rw [soft_i2c_start_eq]
    simp [startOps, setData, setClock]
  · rw [lastWritten_append]
    simp [lastWritten]
  · rw [soft_i2c_stop_eq]
    simp [stopOps, setData, setClock]
  · rw [lastWritten_append]
    simp [lastWritten]

theorem soft_i2c_write_then_read_tx_frames_head (samples : Nat → GPIO_PinState)
    (bus : soft_i2c_bus_t) (address : Nat) (tx_data : Option (List Nat)) (tx_length : Nat)
    (w : Wire) (htx : 0 < tx_length) :
    ∃ acked rest, (soft_i2c_write_then_read_tx samples bus address tx_data tx_length w).2.frames =
      w.frames ++ Frame.start :: Frame.tx ((address &&& 0xFE) % 256) acked :: rest := by
  have hpos : tx_length > 0 := htx
  unfold soft_i2c_write_then_read_tx
  simp only [hpos, if_true, soft_i2c_start_eq, soft_i2c_write_byte_eq]
  by_cases h0 : samples w.reads = GPIO_PIN_RESET
  · simp only [h0, decide_True, Bool.not_true, Bool.false_eq_true, if_false]
    obtain ⟨rest, hrest⟩ := soft_i2c_tx_loop_frames samples bus (tx_data.getD []) tx_length 0
      ⟨w.ops ++ startOps bus ++ txOps bus ((address &&& 0xFE) % 256) GPIO_PIN_RESET,
        w.frames ++ [Frame.start] ++ [Frame.tx ((address &&& 0xFE) % 256) true], w.reads + 1⟩
    exact ⟨true, rest, by rw [hrest]; simp⟩
  · simp only [h0, decide_False, Bool.not_false, if_true, soft_i2c_stop_eq]
    exact ⟨false, [Frame.stop], by simp⟩

theorem soft_i2c_write_then_read_rx_frames_head (samples : Nat → GPIO_PinState)
    (bus : soft_i2c_bus_t) (address : Nat) (rx_data : Option (List Nat)) (rx_length : Nat)
    (w : Wire) (hrx : 0 < rx_length) :
    ∃ acked rest,
      (soft_i2c_write_then_read_rx samples bus address rx_data rx_length w).wire.frames =
        w.frames ++ Frame.start :: Frame.tx ((address ||| 0x01) % 256) acked :: rest := by
  have hpos : rx_length > 0 := hrx
  unfold soft_i2c_write_then_read_rx
  simp only [hpos, if_true, soft_i2c_start_eq, soft_i2c_write_byte_eq]
  by_cases h0 : samples w.reads = GPIO_PIN_RESET
  · simp only [h0, decide_True, Bool.not_true, Bool.false_eq_true, if_false,
      soft_i2c_rx_loop_wire, soft_i2c_stop_eq]
    exact ⟨true, _, by simp; rfl⟩
  · simp only [h0, decide_False, Bool.not_false, if_true, soft_i2c_stop_eq]
    exact ⟨false, [Frame.stop], by simp⟩

theorem testBit_254 (i : Nat) (h1 : 1 ≤ i) (h7 : i ≤ 7) : (254 : Nat).testBit i = true := by
  interval_cases i <;> decide

theorem testBit_one (i : Nat) (h1 : 1 ≤ i) : (1 : Nat).testBit i = false := by
  obtain ⟨j, rfl⟩ := Nat.exists_eq_succ_of_ne_zero (Nat.ne_of_gt h1)
  simp [Nat.testBit_succ]

theorem address_bytes_bits (address : Nat) :
    (address &&& 0xFE) % 256 < 256 ∧ (address ||| 0x01) % 256 < 256 ∧
    (∀ i, 1 ≤ i → i ≤ 7 →
      ((address &&& 0xFE) % 256).testBit i = address.testBit i ∧
      ((address ||| 0x01) % 256).testBit i = address.testBit i) ∧
    ((address &&& 0xFE) % 256).testBit 0 = false ∧
    ((address ||| 0x01) % 256).testBit 0 = true := by
  have e : (256 : Nat) = 2 ^ 8 := by norm_num
  refine ⟨Nat.mod_lt _ (by norm_num), Nat.mod_lt _ (by norm_num), ?_, ?_, ?_⟩
  · intro i h1 h7
    have hlt : i < 8 := by omega
    rw [e]
    simp only [Nat.testBit_mod_two_pow, Nat.testBit_and, Nat.testBit_or, testBit_254 i h1 h7,
      testBit_one i h1, hlt, decide_True, Bool.true_and, Bool.and_true, Bool.or_false,
      and_self]
  · have h := write_address_byte address
    simp only [Nat.testBit_zero, decide_eq_false_iff_not]
    omega
  · have h := read_address_byte address
    simp only [Nat.testBit_zero, decide_eq_true_eq]
    omega

/-- C19: in `soft_i2c_write_then_read` the byte transmitted right after the start of the
write phase is `(uint8_t)(address & 0xFE)` and the one right after the start of the read
phase is `(uint8_t)(address | 0x01)`, and `soft_i2c_write` transmits the former too.  Both
are below 256 (bits 15..8 of the argument are discarded), on bits 7..1 both equal the
address argument, and bit 0 is 0 in the write-direction byte and 1 in the read-direction
byte. -/
theorem address_bytes_same_device (samples : Nat → GPIO_PinState) (bus : soft_i2c_bus_t)
    (address : Nat) (tx_data rx_data : Option (List Nat)) (tx_length rx_length : Nat)
    (w w' : Wire) (htx : 0 < tx_length) (hrx : 0 < rx_length) :
    ∃ wa ra : Nat,
      (∃ acked rest,
        (soft_i2c_write_then_read_tx samples bus address tx_data tx_length w).2.frames =
          w.frames ++ Frame.start :: Frame.tx wa acked :: rest) ∧
      (∃ acked rest,
        (soft_i2c_write_then_read_rx samples bus address rx_data rx_length w').wire.frames =
          w'.frames ++ Frame.start :: Frame.tx ra acked :: rest) ∧
      (∃ acked rest,
        (soft_i2c_write samples (some bus) address tx_data 0 w).2.frames =
          w.frames ++ Frame.start :: Frame.tx wa acked :: rest) ∧
      wa < 256 ∧ ra < 256 ∧
      (∀ i, 1 ≤ i → i ≤ 7 →
        wa.testBit i = address.testBit i ∧ ra.testBit i = address.testBit i) ∧
      wa.testBit 0 = false ∧ ra.testBit 0 = true := by
  refine ⟨(address &&& 0xFE) % 256, (address ||| 0x01) % 256,
    soft_i2c_write_then_read_tx_frames_head samples bus address tx_data tx_length w htx,
    soft_i2c_write_then_read_rx_frames_head samples bus address rx_data rx_length w' hrx,
    ?_, address_bytes_bits address⟩
  have h := soft_i2c_write_frames_head samples bus address tx_data 0 w (by simp)
  rw [← write_address_byte] at h
  exact h

/-! ## Settle delay -/

theorem soft_i2c_delay_loop_eq (cycles : Nat) (hc : cycles < 4294967296) :
    ∀ fuel i nops, i ≤ cycles → cycles - i < fuel →
      soft_i2c_delay_loop cycles fuel i nops = some (nops + (cycles - i)) := by
  intro fuel
  induction fuel with
  | zero =>
    intro i nops _ hf
    exact absurd hf (Nat.not_lt_zero _)
  | succ fuel ih =>
    intro i nops hi hf
    rw [soft_i2c_delay_loop]
    by_cases hlt : i < cycles
    · have hmod : (i + 1) % 4294967296 = i + 1 := Nat.mod_eq_of_lt (by omega)
      rw [if_pos hlt, hmod, ih (i + 1) (nops + 1) (by omega) (by omega)]
      congr 1
      omega
    · rw [if_neg hlt]
      congr 1
      omega

/-- C15: for every bus descriptor whose `delay_cycles` is a 32-bit value (and for a null
bus), the spin loop of `soft_i2c_delay` is left after finitely many loop tests (any bound
above the resolved cycle count suffices, so `2^32` always does), having executed `__NOP()`
exactly `delay_cycles` times when `delay_cycles` is non-zero and exactly 32 times when it is
zero or the bus is null; this count is the one recorded with the delay in the trace. -/
theorem soft_i2c_delay_spin_count (bus : Option soft_i2c_bus_t) (fuel : Nat) (w : Wire)
    (hu32 : ∀ b, bus = some b → b.delay_cycles < 4294967296)
    (hfuel : soft_i2c_delay_cycles bus < fuel) :
    (∀ b, bus = some b → b.delay_cycles ≠ 0 →
      soft_i2c_delay_spin bus fuel = some b.delay_cycles) ∧
    (∀ b, bus = some b → b.delay_cycles = 0 → soft_i2c_delay_spin bus fuel = some 32) ∧
    (bus = none → soft_i2c_delay_spin bus fuel = some 32) ∧
    (soft_i2c_delay_spin bus 4294967296).isSome = true ∧
    (∃ c, soft_i2c_delay_spin bus fuel = some c ∧
      (soft_i2c_delay bus w).ops = w.ops ++ [HalOp.delay c]) := by
  have hc : soft_i2c_delay_cycles bus < 4294967296 := by
    cases bus with
    | none => simp [soft_i2c_delay_cycles]
    | some b =>
      have := hu32 b rfl
      simp only [soft_i2c_delay_cycles]
      split <;> omega
  have hspin : ∀ f, soft_i2c_delay_cycles bus < f →
      soft_i2c_delay_spin bus f = some (soft_i2c_delay_cycles bus) := by
    intro f hf
    unfold soft_i2c_delay_spin
    rw [soft_i2c_delay_loop_eq _ hc f 0 0 (Nat.zero_le _) (by omega)]
    simp
  refine ⟨?_, ?_, ?_, ?_, ?_⟩
  · intro b hb hne
    subst hb
    rw [hspin fuel hfuel]
    simp [soft_i2c_delay_cycles, hne]
  · intro b hb hz
    subst hb
    rw [hspin fuel hfuel]
    simp [soft_i2c_delay_cycles, hz]
  · intro hb
    subst hb
    rw [hspin fuel hfuel]
    simp [soft_i2c_delay_cycles]
  · rw [hspin _ hc]
    rfl
  · exact ⟨_, hspin fuel hfuel, rfl⟩

/-- Witness for C15: a descriptor with `delay_cycles = 0` spins 32 times, one with
`delay_cycles = 5` spins 5 times. -/
theorem soft_i2c_delay_spin_count_witness :
    soft_i2c_delay_spin (some ⟨1, 6, 1, 7, 0⟩) 33 = some 32 ∧
    soft_i2c_delay_spin (some ⟨1, 6, 1, 7, 5⟩) 6 = some 5 :=
  ⟨(soft_i2c_delay_spin_count (some ⟨1, 6, 1, 7, 0⟩) 33 ⟨[], [], 0⟩
      (fun b hb => by
        have e : b = ⟨1, 6, 1, 7, 0⟩ := (Option.some.inj hb).symm
        subst e
        decide)
      (by decide)).2.1 ⟨1, 6, 1, 7, 0⟩ rfl rfl,
    (soft_i2c_delay_spin_count (some ⟨1, 6, 1, 7, 5⟩) 6 ⟨[], [], 0⟩
      (fun b hb => by
        have e : b = ⟨1, 6, 1, 7, 5⟩ := (Option.some.inj hb).symm
        subst e
        decide)
      (by decide)).1 ⟨1, 6, 1, 7, 5⟩ rfl (by decide)⟩

/-! ## Initialisation -/

theorem pinsAfter_append (s : Nat → Nat → PinRegs) (a b : List HalOp) :
    pinsAfter s (a ++ b) = pinsAfter (pinsAfter s a) b := by
  simp [pinsAfter, List.foldl_append]

/-- The calls `soft_i2c_init` makes on a non-null bus. -/
theorem soft_i2c_init_eq (bus : soft_i2c_bus_t) (w : Wire) :
    soft_i2c_init (some bus) w =
      ⟨w.ops ++
          [HalOp.initPin bus.scl_port
              ⟨bus.scl_pin, GPIO_Mode.GPIO_MODE_OUTPUT_OD, GPIO_Pull.GPIO_NOPULL,
                GPIO_Speed.GPIO_SPEED_FREQ_HIGH, 0⟩,
            HalOp.initPin bus.sda_port
              ⟨bus.sda_pin, GPIO_Mode.GPIO_MODE_OUTPUT_OD, GPIO_Pull.GPIO_NOPULL,
                GPIO_Speed.GPIO_SPEED_FREQ_HIGH, 0⟩,
            HalOp.writePin bus.scl_port bus.scl_pin GPIO_PIN_SET,
            HalOp.writePin bus.sda_port bus.sda_pin GPIO_PIN_SET,
            HalOp.delay (soft_i2c_delay_cycles (some bus))],
        w.frames, w.reads⟩ := by
  simp [soft_i2c_init, HAL_GPIO_Init, HAL_GPIO_WritePin, soft_i2c_delay]

/-- Pin state after the calls of one `soft_i2c_init`, pin by pin. -/
theorem pinsAfter_init (bus : soft_i2c_bus_t) (t : Nat → Nat → PinRegs) (p q : Nat) :
    pinsAfter t
        [HalOp.initPin bus.scl_port
            ⟨bus.scl_pin, GPIO_Mode.GPIO_MODE_OUTPUT_OD, GPIO_Pull.GPIO_NOPULL,
              GPIO_Speed.GPIO_SPEED_FREQ_HIGH, 0⟩,
          HalOp.initPin bus.sda_port
            ⟨bus.sda_pin, GPIO_Mode.GPIO_MODE_OUTPUT_OD, GPIO_Pull.GPIO_NOPULL,
              GPIO_Speed.GPIO_SPEED_FREQ_HIGH, 0⟩,
          HalOp.writePin bus.scl_port bus.scl_pin GPIO_PIN_SET,
          HalOp.writePin bus.sda_port bus.sda_pin GPIO_PIN_SET,
          HalOp.delay (soft_i2c_delay_cycles (some bus))] p q =
      if (p = bus.scl_port ∧ q = bus.scl_pin) ∨ (p = bus.sda_port ∧ q = bus.sda_pin) then
        ⟨GPIO_Mode.GPIO_MODE_OUTPUT_OD, GPIO_Pull.GPIO_NOPULL, GPIO_Speed.GPIO_SPEED_FREQ_HIGH,
          GPIO_PIN_SET⟩
      else t p q := by
  simp only [pinsAfter, List.foldl_cons, List.foldl_nil, applyHalOp]
  by_cases h1 : p = bus.scl_port ∧ q = bus.scl_pin
  · obtain ⟨rfl, rfl⟩ := h1
    by_cases h2 : bus.scl_port = bus.sda_port ∧ bus.scl_pin = bus.sda_pin
    · simp [h2]
    · simp [h2]
  · by_cases h2 : p = bus.sda_port ∧ q = bus.sda_pin
    · obtain ⟨rfl, rfl⟩ := h2
      simp [h1]
    · simp [h1, h2]

/-- C14: on a non-null bus and from any prior pin state `s` and any prior trace, the pin
state after calling `soft_i2c_init` twice in succession equals the pin state after calling
it once; after the call both lines are configured open-drain output with no pull and high
speed and both levels are high.  On a null bus the call does nothing. -/
theorem soft_i2c_init_idempotent (bus : soft_i2c_bus_t) (s : Nat → Nat → PinRegs) (w : Wire) :
    pinsAfter s (soft_i2c_init (some bus) (soft_i2c_init (some bus) w)).ops =
      pinsAfter s (soft_i2c_init (some bus) w).ops ∧
    pinsAfter s (soft_i2c_init (some bus) w).ops bus.scl_port bus.scl_pin =
      ⟨GPIO_Mode.GPIO_MODE_OUTPUT_OD, GPIO_Pull.GPIO_NOPULL, GPIO_Speed.GPIO_SPEED_FREQ_HIGH,
        GPIO_PIN_SET⟩ ∧
    pinsAfter s (soft_i2c_init (some bus) w).ops bus.sda_port bus.sda_pin =
      ⟨GPIO_Mode.GPIO_MODE_OUTPUT_OD, GPIO_Pull.GPIO_NOPULL, GPIO_Speed.GPIO_SPEED_FREQ_HIGH,
        GPIO_PIN_SET⟩ ∧
    soft_i2c_init none w = w := by
  refine ⟨?_, ?_, ?_, rfl⟩
  · simp only [soft_i2c_init_eq, pinsAfter_append]
    funext p q
    rw [pinsAfter_init, pinsAfter_init]
    split <;> rfl
  · simp only [soft_i2c_init_eq, pinsAfter_append]
    rw [pinsAfter_init]
    simp
  · simp only [soft_i2c_init_eq, pinsAfter_append]
    rw [pinsAfter_init]
    simp

/-! ## Data-line changes while the clock is high -/

theorem lineScan_append (bus : soft_i2c_bus_t) (st : LineState) (a b : List HalOp) :
    lineScan bus st (a ++ b) = lineScan bus (lineScan bus st a) b := by
  simp [lineScan, List.foldl_append]

theorem lineScan_setClock (bus : soft_i2c_bus_t)
    (hdist : ¬ (bus.scl_port = bus.sda_port ∧ bus.scl_pin = bus.sda_pin))
    (st : LineState) (state : GPIO_PinState) :
    lineScan bus st (setClock bus state) = { st with scl := state } := by
  simp [lineScan, setClock, lineStep, hdist]

theorem lineScan_setData (bus : soft_i2c_bus_t) (st : LineState) (state : GPIO_PinState) :
    lineScan bus st (setData bus state) =
      { st with
        sda := state,
        falls := st.falls +
          (if st.scl = GPIO_PIN_SET ∧ st.sda = GPIO_PIN_SET ∧ state = GPIO_PIN_RESET
            then 1 else 0),
        rises := st.rises +
          (if st.scl = GPIO_PIN_SET ∧ st.sda = GPIO_PIN_RESET ∧ state = GPIO_PIN_SET
            then 1 else 0) } := by
  simp [lineScan, setData, lineStep]

theorem lineScan_sampleData (bus : soft_i2c_bus_t) (st : LineState) (state : GPIO_PinState) :
    lineScan bus st (sampleData bus state) = st := by
  simp [lineScan, sampleData, lineStep]

theorem lineScan_startOps (bus : soft_i2c_bus_t)
    (hdist : ¬ (bus.scl_port = bus.sda_port ∧ bus.scl_pin = bus.sda_pin))
    (st : LineState) (h : st.sda = GPIO_PIN_SET) :
    lineScan bus st (startOps bus) = ⟨GPIO_PIN_RESET, GPIO_PIN_RESET, st.falls + 1, st.rises⟩ := by
  simp [startOps, lineScan_append, lineScan_setClock bus hdist, lineScan_setData, h]

theorem lineScan_stopOps (bus : soft_i2c_bus_t)
    (hdist : ¬ (bus.scl_port = bus.sda_port ∧ bus.scl_pin = bus.sda_pin))
    (st : LineState) (h : st.scl = GPIO_PIN_RESET) :
    lineScan bus st (stopOps bus) = ⟨GPIO_PIN_SET, GPIO_PIN_SET, st.falls, st.rises + 1⟩ := by
  simp [stopOps, lineScan_append, lineScan_setClock bus hdist, lineScan_setData, h]

theorem lineScan_txPulse (bus : soft_i2c_bus_t)
    (hdist : ¬ (bus.scl_port = bus.sda_port ∧ bus.scl_pin = bus.sda_pin))
    (st : LineState) (state : GPIO_PinState) :
    lineScan bus st (txPulse bus state) = ⟨GPIO_PIN_SET, state, st.falls, st.rises⟩ := by
  simp [txPulse, lineScan_append, lineScan_setClock bus hdist, lineScan_setData]

theorem lineScan_txPulses (bus : soft_i2c_bus_t)
    (hdist : ¬ (bus.scl_port = bus.sda_port ∧ bus.scl_pin = bus.sda_pin))
    (f : Nat → GPIO_PinState) (js : List Nat) (st : LineState) :
    (lineScan bus st (js.flatMap (fun j => txPulse bus (f j)))).falls = st.falls ∧
    (lineScan bus st (js.flatMap (fun j => txPulse bus (f j)))).rises = st.rises := by
  induction js generalizing st with
  | nil => simp [lineScan]
  | cons j js ih =>
    rw [List.flatMap_cons, lineScan_append, lineScan_txPulse bus hdist]
    exact ih _

theorem lineScan_txOps (bus : soft_i2c_bus_t)
    (hdist : ¬ (bus.scl_port = bus.sda_port ∧ bus.scl_pin = bus.sda_pin))
    (st : LineState) (byte : Nat) (sample : GPIO_PinState) :
    lineScan bus st (txOps bus byte sample) =
      ⟨GPIO_PIN_RESET, GPIO_PIN_SET, st.falls, st.rises⟩ := by
  obtain ⟨hf, hr⟩ := lineScan_txPulses bus hdist
    (fun j => levelOfBit (byte.testBit (7 - j))) (List.range 8) st
  simp [txOps, txAckSlot, lineScan_append, lineScan_setClock bus hdist, lineScan_setData,
    lineScan_sampleData, hf, hr]

theorem lineScan_rxPulses (bus : soft_i2c_bus_t)
    (hdist : ¬ (bus.scl_port = bus.sda_port ∧ bus.scl_pin = bus.sda_pin))
    (f : Nat → GPIO_PinState) (js : List Nat) (st : LineState) :
    (lineScan bus st (js.flatMap (fun j => rxPulse bus (f j)))).sda = st.sda ∧
    (lineScan bus st (js.flatMap (fun j => rxPulse bus (f j)))).falls = st.falls ∧
    (lineScan bus st (js.flatMap (fun j => rxPulse bus (f j)))).rises = st.rises := by
  induction js generalizing st with
  | nil => simp [lineScan]
  | cons j js ih =>
    rw [List.flatMap_cons, lineScan_append]
    have h : lineScan bus st (rxPulse bus (f j)) = { st with scl := GPIO_PIN_SET } := by
      simp [rxPulse, lineScan_append, lineScan_setClock bus hdist, lineScan_sampleData]
    rw [h]
    exact ih _

theorem lineScan_rxOps (bus : soft_i2c_bus_t)
    (hdist : ¬ (bus.scl_port = bus.sda_port ∧ bus.scl_pin = bus.sda_pin))
    (samples : Nat → GPIO_PinState) (ack : Bool) (r : Nat)
    (st : LineState) (h : st.scl = GPIO_PIN_RESET) :
    lineScan bus st (rxOps samples bus ack r) =
      ⟨GPIO_PIN_RESET, GPIO_PIN_SET, st.falls, st.rises⟩ := by
  obtain ⟨-, hf, hr⟩ := lineScan_rxPulses bus hdist (fun j => samples (r + j)) (List.range 8)
    ⟨GPIO_PIN_RESET, GPIO_PIN_SET, st.falls, st.rises⟩
  simp only [rxOps, rxAckSlot, lineScan_append, lineScan_setClock bus hdist, lineScan_setData,
    h]
  simp [hf, hr]

theorem lineScan_rxOps_list (bus : soft_i2c_bus_t)
    (hdist : ¬ (bus.scl_port = bus.sda_port ∧ bus.scl_pin = bus.sda_pin))
    (samples : Nat → GPIO_PinState) (a : Nat → Bool) (b : Nat → Nat) (js : List Nat)
    (f r : Nat) :
    lineScan bus ⟨GPIO_PIN_RESET, GPIO_PIN_SET, f, r⟩
        (js.flatMap (fun k => rxOps samples bus (a k) (b k))) =
      ⟨GPIO_PIN_RESET, GPIO_PIN_SET, f, r⟩ := by
  induction js with
  | nil => simp [lineScan]
  | cons j js ih =>
    rw [List.flatMap_cons, lineScan_append, lineScan_rxOps bus hdist samples _ _ _ rfl]
    exact ih

theorem soft_i2c_tx_loop_scan (bus : soft_i2c_bus_t)
    (hdist : ¬ (bus.scl_port = bus.sda_port ∧ bus.scl_pin = bus.sda_pin))
    (samples : Nat → GPIO_PinState) (data : List Nat) (st0 : LineState) (f r : Nat)
    (n i : Nat) (w : Wire)
    (h : lineScan bus st0 w.ops = ⟨GPIO_PIN_RESET, GPIO_PIN_SET, f, r⟩) :
    (soft_i2c_tx_loop samples bus data n i w).2.frames.count Frame.start =
      w.frames.count Frame.start ∧
    lineScan bus st0 (soft_i2c_tx_loop samples bus data n i w).2.ops =
      (if (soft_i2c_tx_loop samples bus data n i w).1 = true
        then ⟨GPIO_PIN_RESET, GPIO_PIN_SET, f, r⟩ else ⟨GPIO_PIN_SET, GPIO_PIN_SET, f, r + 1⟩) := by
  induction n generalizing i w with
  | zero => simp [soft_i2c_tx_loop, h]
  | succ n ih =>
    rw [soft_i2c_tx_loop, soft_i2c_write_byte_eq]
    have hw : lineScan bus st0 (w.ops ++ txOps bus (data.getD i 0) (samples w.reads)) =
        ⟨GPIO_PIN_RESET, GPIO_PIN_SET, f, r⟩ := by
      rw [lineScan_append, h, lineScan_txOps bus hdist]
    by_cases h0 : samples w.reads = GPIO_PIN_RESET
    · simp only [h0, decide_True, Bool.not_true, Bool.false_eq_true, if_false]
      rw [h0] at hw
      obtain ⟨hc, hs⟩ := ih (i + 1)
        ⟨w.ops ++ txOps bus (data.getD i 0) GPIO_PIN_RESET,
          w.frames ++ [Frame.tx (data.getD i 0) true], w.reads + 1⟩ hw
      refine ⟨?_, hs⟩
      rw [hc]
      simp [List.count_append, List.count_cons]
    · simp only [h0, decide_False, Bool.not_false, if_true, soft_i2c_stop_eq,
        Bool.false_eq_true, if_false]
      refine ⟨by simp [List.count_append, List.count_cons], ?_⟩
      rw [lineScan_append, hw, lineScan_stopOps bus hdist _ rfl]

theorem soft_i2c_rx_loop_scan (bus : soft_i2c_bus_t)
    (hdist : ¬ (bus.scl_port = bus.sda_port ∧ bus.scl_pin = bus.sda_pin))
    (samples : Nat → GPIO_PinState) (st0 : LineState) (f r : Nat)
    (len n i : Nat) (rx : List Nat) (w : Wire)
    (h : lineScan bus st0 w.ops = ⟨GPIO_PIN_RESET, GPIO_PIN_SET, f, r⟩) :
    (soft_i2c_rx_loop samples bus len n i rx w).2.frames.count Frame.start =
      w.frames.count Frame.start ∧
    lineScan bus st0 (soft_i2c_rx_loop samples bus len n i rx w).2.ops =
      ⟨GPIO_PIN_RESET, GPIO_PIN_SET, f, r⟩ := by
  rw [soft_i2c_rx_loop_wire]
  refine ⟨?_, ?_⟩
  · simp [List.count_append, List.count_eq_zero]
  · simp only
    rw [lineScan_append, h]
    exact lineScan_rxOps_list bus hdist samples _ _ _ f r

theorem soft_i2c_write_then_read_tx_scan (bus : soft_i2c_bus_t)
    (hdist : ¬ (bus.scl_port = bus.sda_port ∧ bus.scl_pin = bus.sda_pin))
    (samples : Nat → GPIO_PinState) (address : Nat) (tx_data : Option (List Nat))
    (tx_length : Nat) (st0 : LineState) (f r : Nat) (w : Wire) (htx : 0 < tx_length)
    (h : lineScan bus st0 w.ops = ⟨GPIO_PIN_SET, GPIO_PIN_SET, f, r⟩) :
    (soft_i2c_write_then_read_tx samples bus address tx_data tx_length w).2.frames.count
        Frame.start = w.frames.count Frame.start + 1 ∧
    lineScan bus st0 (soft_i2c_write_then_read_tx samples bus address tx_data tx_length w).2.ops =
      (if (soft_i2c_write_then_read_tx samples bus address tx_data tx_length w).1 = true
        then ⟨GPIO_PIN_RESET, GPIO_PIN_SET, f + 1, r⟩
        else ⟨GPIO_PIN_SET, GPIO_PIN_SET, f + 1, r + 1⟩) := by
  have hpos : tx_length > 0 := htx
  have hw : ∀ s, lineScan bus st0
      (w.ops ++ startOps bus ++ txOps bus ((address &&& 0xFE) % 256) s) =
        ⟨GPIO_PIN_RESET, GPIO_PIN_SET, f + 1, r⟩ := by
    intro s
    rw [lineScan_append, lineScan_append, h, lineScan_startOps bus hdist _ rfl,
      lineScan_txOps bus hdist]
  unfold soft_i2c_write_then_read_tx
  simp only [hpos, if_true, soft_i2c_start_eq, soft_i2c_write_byte_eq]
  by_cases h0 : samples w.reads = GPIO_PIN_RESET
  · simp only [h0, decide_True, Bool.not_true, Bool.false_eq_true, if_false]
    obtain ⟨hc, hs⟩ := soft_i2c_tx_loop_scan bus hdist samples (tx_data.getD []) st0 (f + 1) r
      tx_length 0
      ⟨w.ops ++ startOps bus ++ txOps bus ((address &&& 0xFE) % 256) GPIO_PIN_RESET,
        w.frames ++ [Frame.start] ++ [Frame.tx ((address &&& 0xFE) % 256) true], w.reads + 1⟩
      (hw _)
    refine ⟨?_, hs⟩
    rw [hc]
    simp [List.count_append, List.count_cons]
  · simp only [h0, decide_False, Bool.not_false, if_true, soft_i2c_stop_eq,
      Bool.false_eq_true, if_false]
    refine ⟨by simp [List.count_append, List.count_cons], ?_⟩
    rw [lineScan_append, hw, lineScan_stopOps bus hdist _ rfl]

theorem soft_i2c_write_then_read_rx_scan (bus : soft_i2c_bus_t)
    (hdist : ¬ (bus.scl_port = bus.sda_port ∧ bus.scl_pin = bus.sda_pin))
    (samples : Nat → GPIO_PinState) (address : Nat) (rx_data : Option (List Nat))
    (rx_length : Nat) (st0 : LineState) (c : GPIO_PinState) (f r : Nat) (w : Wire)
    (h : lineScan bus st0 w.ops = ⟨c, GPIO_PIN_SET, f, r⟩)
    (hc : rx_length = 0 → c = GPIO_PIN_RESET) :
    (soft_i2c_write_then_read_rx samples bus address rx_data rx_length w).wire.frames.count
        Frame.start = w.frames.count Frame.start + (if rx_length > 0 then 1 else 0) ∧
    lineScan bus st0 (soft_i2c_write_then_read_rx samples bus address rx_data rx_length w).wire.ops =
      ⟨GPIO_PIN_SET, GPIO_PIN_SET, f + (if rx_length > 0 then 1 else 0), r + 1⟩ := by
  unfold soft_i2c_write_then_read_rx
  by_cases hn : rx_length > 0
  · have hw : ∀ s, lineScan bus st0
        (w.ops ++ startOps bus ++ txOps bus ((address ||| 0x01) % 256) s) =
          ⟨GPIO_PIN_RESET, GPIO_PIN_SET, f + 1, r⟩ := by
      intro s
      rw [lineScan_append, lineScan_append, h, lineScan_startOps bus hdist _ rfl,
        lineScan_txOps bus hdist]
    simp only [hn, if_true, soft_i2c_start_eq, soft_i2c_write_byte_eq]
    by_cases h0 : samples w.reads = GPIO_PIN_RESET
    · simp only [h0, decide_True, Bool.not_true, Bool.false_eq_true, if_false, soft_i2c_stop_eq]
      obtain ⟨hcnt, hs⟩ := soft_i2c_rx_loop_scan bus hdist samples st0 (f + 1) r
        rx_length rx_length 0 (rx_data.getD [])
        ⟨w.ops ++ startOps bus ++ txOps bus ((address ||| 0x01) % 256) GPIO_PIN_RESET,
          w.frames ++ [Frame.start] ++ [Frame.tx ((address ||| 0x01) % 256) true], w.reads + 1⟩
        (hw _)
      refine ⟨?_, ?_⟩
      · rw [List.count_append, hcnt]
        simp [List.count_append, List.count_cons]
      · rw [lineScan_append, hs, lineScan_stopOps bus hdist _ rfl]
    · simp only [h0, decide_False, Bool.not_false, if_true, soft_i2c_stop_eq]
      refine ⟨by simp [List.count_append, List.count_cons], ?_⟩
      rw [lineScan_append, hw, lineScan_stopOps bus hdist _ rfl]
  · have hz : rx_length = 0 := by omega
    have hcl := hc hz
    subst hcl
    simp only [hn, if_false, soft_i2c_stop_eq]
    refine ⟨by simp [List.count_append, List.count_cons], ?_⟩
    rw [lineScan_append, h, lineScan_stopOps bus hdist _ rfl]
    simp

/-- C18: no spurious start or stop.  Let the clock and the data line be distinct pins and
let both be written high when the call begins (idle).  Then for all arguments and all
peripheral behaviour, a call of `soft_i2c_write` that performs any pin operation makes
exactly one high-to-low change of the written data level while the written clock level is
high, and exactly one low-to-high change; a call of `soft_i2c_write_then_read` that performs
any pin operation makes `k` high-to-low changes, `k` being 1 or 2, and exactly one
low-to-high change.  In both cases the number of high-to-low changes is the number of start
conditions the call emits.  The counters count every change of the data level made while
the clock is high, so all other data-line changes happen while the clock is low. -/
theorem no_spurious_start_stop (samples : Nat → GPIO_PinState) (bus : soft_i2c_bus_t)
    (address : Nat) (data : Option (List Nat)) (length : Nat)
    (tx_data : Option (List Nat)) (tx_length : Nat) (rx_data : Option (List Nat))
    (rx_length : Nat) (st0 : LineState) (w : Wire)
    (hdist : ¬ (bus.scl_port = bus.sda_port ∧ bus.scl_pin = bus.sda_pin))
    (hscl : (lineScan bus st0 w.ops).scl = GPIO_PIN_SET)
    (hsda : (lineScan bus st0 w.ops).sda = GPIO_PIN_SET) :
    ((soft_i2c_write samples (some bus) address data length w).2.ops ≠ w.ops →
      (lineScan bus st0 (soft_i2c_write samples (some bus) address data length w).2.ops).falls
        = (lineScan bus st0 w.ops).falls + 1 ∧
      (soft_i2c_write samples (some bus) address data length w).2.frames.count Frame.start
        = w.frames.count Frame.start + 1 ∧
      (lineScan bus st0 (soft_i2c_write samples (some bus) address data length w).2.ops).rises
        = (lineScan bus st0 w.ops).rises + 1) ∧
    ((soft_i2c_write_then_read samples (some bus) address tx_data tx_length rx_data rx_length
        w).wire.ops ≠ w.ops →
      ∃ k, (k = 1 ∨ k = 2) ∧
        (lineScan bus st0 (soft_i2c_write_then_read samples (some bus) address tx_data
          tx_length rx_data rx_length w).wire.ops).falls = (lineScan bus st0 w.ops).falls + k ∧
        (soft_i2c_write_then_read samples (some bus) address tx_data tx_length rx_data
          rx_length w).wire.frames.count Frame.start = w.frames.count Frame.start + k ∧
        (lineScan bus st0 (soft_i2c_write_then_read samples (some bus) address tx_data
          tx_length rx_data rx_length w).wire.ops).rises
          = (lineScan bus st0 w.ops).rises + 1) := by
  have hst : lineScan bus st0 w.ops =
      ⟨GPIO_PIN_SET, GPIO_PIN_SET, (lineScan bus st0 w.ops).falls,
        (lineScan bus st0 w.ops).rises⟩ := by
    cases hL : lineScan bus st0 w.ops with
    | mk c d F R =>
      rw [hL] at hscl hsda
      simp only at hscl hsda
      rw [hscl, hsda]
  generalize (lineScan bus st0 w.ops).falls = F at hst ⊢
  generalize (lineScan bus st0 w.ops).rises = R at hst ⊢
  constructor
  · intro hact
    unfold soft_i2c_write at hact ⊢
    dsimp only at hact ⊢
    by_cases hg : length > 0 ∧ data = none
    · rw [if_pos hg] at hact
      exact absurd rfl hact
    have hw : ∀ s, lineScan bus st0
        (w.ops ++ startOps bus ++ txOps bus ((address &&& 0xFE) % 256) s) =
          ⟨GPIO_PIN_RESET, GPIO_PIN_SET, F + 1, R⟩ := by
      intro s
      rw [lineScan_append, lineScan_append, hst, lineScan_startOps bus hdist _ rfl,
        lineScan_txOps bus hdist]
    simp only [hg, if_false, soft_i2c_start_eq, soft_i2c_write_byte_eq]
    by_cases h0 : samples w.reads = GPIO_PIN_RESET
    · simp only [h0, decide_True, Bool.not_true, Bool.false_eq_true, if_false]
      obtain ⟨hc, hs⟩ := soft_i2c_tx_loop_scan bus hdist samples (data.getD []) st0 (F + 1) R
        length 0
        ⟨w.ops ++ startOps bus ++ txOps bus ((address &&& 0xFE) % 256) GPIO_PIN_RESET,
          w.frames ++ [Frame.start] ++ [Frame.tx ((address &&& 0xFE) % 256) true], w.reads + 1⟩
        (hw _)
      by_cases hl : (soft_i2c_tx_loop samples bus (data.getD []) length 0
          ⟨w.ops ++ startOps bus ++ txOps bus ((address &&& 0xFE) % 256) GPIO_PIN_RESET,
            w.frames ++ [Frame.start] ++ [Frame.tx ((address &&& 0xFE) % 256) true],
            w.reads + 1⟩).1 = true
      · rw [if_pos hl] at hs
        simp only [hl, Bool.not_true, Bool.false_eq_true, if_false, soft_i2c_stop_eq]
        rw [lineScan_append, hs, lineScan_stopOps bus hdist _ rfl, List.count_append, hc]
        simp [List.count_append, List.count_cons]
      · rw [if_neg hl] at hs
        simp only [hl, Bool.not_false, if_true]
        rw [hs, hc]
        simp [List.count_append, List.count_cons]
    · simp only [h0, decide_False, Bool.not_false, if_true, soft_i2c_stop_eq]
      rw [lineScan_append, hw, lineScan_stopOps bus hdist _ rfl]
      simp [List.count_append, List.count_cons]
  · intro hact
    unfold soft_i2c_write_then_read at hact ⊢
    dsimp only at hact ⊢
    by_cases hg1 : tx_length = 0 ∧ rx_length = 0
    · rw [if_pos hg1] at hact
      exact absurd rfl hact
    rw [if_neg hg1] at hact ⊢
    by_cases hg2 : tx_length > 0 ∧ tx_data = none
    · rw [if_pos hg2] at hact
      exact absurd rfl hact
    rw [if_neg hg2] at hact ⊢
    by_cases hg3 : rx_length > 0 ∧ rx_data = none
    · rw [if_pos hg3] at hact
      exact absurd rfl hact
    rw [if_neg hg3]
    by_cases htx : 0 < tx_length
    · obtain ⟨hc, hs⟩ := soft_i2c_write_then_read_tx_scan bus hdist samples address tx_data
        tx_length st0 F R w htx hst
      by_cases hp : (soft_i2c_write_then_read_tx samples bus address tx_data tx_length w).1
          = true
      · rw [if_pos hp] at hs
        simp only [hp, Bool.not_true, Bool.false_eq_true, if_false]
        obtain ⟨hc2, hs2⟩ := soft_i2c_write_then_read_rx_scan bus hdist samples address rx_data
          rx_length st0 GPIO_PIN_RESET (F + 1) R
          (soft_i2c_write_then_read_tx samples bus address tx_data tx_length w).2 hs
          (fun _ => rfl)
        rw [hs2, hc2, hc]
        by_cases hn : rx_length > 0
        · exact ⟨2, Or.inr rfl, by simp [hn], by simp [hn], rfl⟩
        · exact ⟨1, Or.inl rfl, by simp [hn], by simp [hn], rfl⟩
      · rw [if_neg hp] at hs
        simp only [hp, Bool.not_false, if_true]
        rw [hs, hc]
        exact ⟨1, Or.inl rfl, rfl, rfl, rfl⟩
    · have hz : tx_length = 0 := by omega
      have hn : rx_length > 0 := by
        by_contra hcon
        exact hg1 ⟨hz, by omega⟩
      have hp : soft_i2c_write_then_read_tx samples bus address tx_data tx_length w
          = (true, w) := by
        simp [soft_i2c_write_then_read_tx, hz]
      simp only [hp, Bool.not_true, Bool.false_eq_true, if_false]
      obtain ⟨hc2, hs2⟩ := soft_i2c_write_then_read_rx_scan bus hdist samples address rx_data
        rx_length st0 GPIO_PIN_SET F R w hst (fun h0 => absurd h0 (by omega))
      rw [hs2, hc2]
      exact ⟨1, Or.inl rfl, by simp [hn], by simp [hn], rfl⟩

set_option maxRecDepth 100000 in
/-- Witness for C18: bus on pins 6 and 7 of one port, both lines high at the start; a fully
acknowledged write of `[0xA5]` and a fully acknowledged combined transaction with
`tx = [0x01]` and two bytes to read. -/
theorem no_spurious_start_stop_witness :
    ((lineScan ⟨1, 6, 1, 7, 1⟩ ⟨GPIO_PIN_SET, GPIO_PIN_SET, 0, 0⟩
        (soft_i2c_write (fun _ => GPIO_PIN_RESET) (some ⟨1, 6, 1, 7, 1⟩) 0x80 (some [0xA5]) 1
          ⟨[], [], 0⟩).2.ops).falls = 1 ∧
      (soft_i2c_write (fun _ => GPIO_PIN_RESET) (some ⟨1, 6, 1, 7, 1⟩) 0x80 (some [0xA5]) 1
          ⟨[], [], 0⟩).2.frames.count Frame.start = 1 ∧
      (lineScan ⟨1, 6, 1, 7, 1⟩ ⟨GPIO_PIN_SET, GPIO_PIN_SET, 0, 0⟩
        (soft_i2c_write (fun _ => GPIO_PIN_RESET) (some ⟨1, 6, 1, 7, 1⟩) 0x80 (some [0xA5]) 1
          ⟨[], [], 0⟩).2.ops).rises = 1) ∧
    (∃ k, (k = 1 ∨ k = 2) ∧
      (lineScan ⟨1, 6, 1, 7, 1⟩ ⟨GPIO_PIN_SET, GPIO_PIN_SET, 0, 0⟩
        (soft_i2c_write_then_read (fun _ => GPIO_PIN_RESET) (some ⟨1, 6, 1, 7, 1⟩) 0x80
          (some [0x01]) 1 (some [0, 0]) 2 ⟨[], [], 0⟩).wire.ops).falls = 0 + k ∧
      (soft_i2c_write_then_read (fun _ => GPIO_PIN_RESET) (some ⟨1, 6, 1, 7, 1⟩) 0x80
          (some [0x01]) 1 (some [0, 0]) 2 ⟨[], [], 0⟩).wire.frames.count Frame.start = 0 + k ∧
      (lineScan ⟨1, 6, 1, 7, 1⟩ ⟨GPIO_PIN_SET, GPIO_PIN_SET, 0, 0⟩
        (soft_i2c_write_then_read (fun _ => GPIO_PIN_RESET) (some ⟨1, 6, 1, 7, 1⟩) 0x80
          (some [0x01]) 1 (some [0, 0]) 2 ⟨[], [], 0⟩).wire.ops).rises = 1) :=
  ⟨(no_spurious_start_stop (fun _ => GPIO_PIN_RESET) ⟨1, 6, 1, 7, 1⟩ 0x80 (some [0xA5]) 1
      (some [0x01]) 1 (some [0, 0]) 2 ⟨GPIO_PIN_SET, GPIO_PIN_SET, 0, 0⟩ ⟨[], [], 0⟩
      (by decide) rfl rfl).1 (by decide),
    (no_spurious_start_stop (fun _ => GPIO_PIN_RESET) ⟨1, 6, 1, 7, 1⟩ 0x80 (some [0xA5]) 1
      (some [0x01]) 1 (some [0, 0]) 2 ⟨GPIO_PIN_SET, GPIO_PIN_SET, 0, 0⟩ ⟨[], [], 0⟩
      (by decide) rfl rfl).2 (by decide)⟩

/-- Witness for C19: address argument `0x1A5`, whose bits 15..8 are dropped: the
write-direction byte is `0xA4` and the read-direction byte `0xA5`. -/
theorem address_bytes_same_device_witness :
    ∃ wa ra : Nat,
      (∃ acked rest,
        (soft_i2c_write_then_read_tx (fun _ => GPIO_PIN_RESET) ⟨1, 6, 1, 7, 1⟩ 0x1A5
          (some [0x01]) 1 ⟨[], [], 0⟩).2.frames =
          [] ++ Frame.start :: Frame.tx wa acked :: rest) ∧
      (∃ acked rest,
        (soft_i2c_write_then_read_rx (fun _ => GPIO_PIN_RESET) ⟨1, 6, 1, 7, 1⟩ 0x1A5
          (some [0, 0]) 2 ⟨[], [], 2⟩).wire.frames =
          [] ++ Frame.start :: Frame.tx ra acked :: rest) ∧
      wa < 256 ∧ ra < 256 ∧
      (∀ i, 1 ≤ i → i ≤ 7 →
        wa.testBit i = (0x1A5 : Nat).testBit i ∧ ra.testBit i = (0x1A5 : Nat).testBit i) ∧
      wa.testBit 0 = false ∧ ra.testBit 0 = true := by
  obtain ⟨wa, ra, h1, h2, -, h4⟩ := address_bytes_same_device (fun _ => GPIO_PIN_RESET)
    ⟨1, 6, 1, 7, 1⟩ 0x1A5 (some [0x01]) (some [0, 0]) 1 2 ⟨[], [], 0⟩ ⟨[], [], 2⟩
    (by decide) (by decide)
  exact ⟨wa, ra, h1, h2, h4⟩

end SoftI2C

namespace DropletControl

/-! ## Path indices of `droplet_rotate_clockwise` -/

theorem path_len_eq : path_len = 12 := by
  decide

theorem droplet_rotate_state_eq (k : Nat) :
    droplet_rotate_state k = ⟨k % 12, (k + 1) % 12⟩ := by
  induction k with
  | zero => rfl
  | succ k ih =>
    rw [droplet_rotate_state, ih]
    simp only [droplet_rotate_step, path_len_eq]
    congr 1 <;> omega

theorem clockwise_path_lookup : ∀ j : Fin 12,
    clockwise_path[j.val]? = some (clockwise_path.getD j.val 0) ∧
    clockwise_path[(j.val + 1) % 12]? = some (clockwise_path.getD ((j.val + 1) % 12) 0) ∧
    clockwise_path.getD j.val 0 < 16 ∧ clockwise_path.getD ((j.val + 1) % 12) 0 < 16 ∧
    clockwise_path.getD j.val 0 ≠ clockwise_path.getD ((j.val + 1) % 12) 0 := by
  decide

/-- C20: at the start of every iteration `k = 0, 1, 2, ...` of the outer loop of
`droplet_rotate_clockwise` the indices are `current = k mod 12` and `next = (k + 1) mod 12`;
`path_len` is 12, so both indices are below it and both lookups in `clockwise_path` are in
bounds; the two channels read are below 16 and differ, and the entries of `clockwise_path`
are pairwise distinct. -/
theorem droplet_rotate_indices (k : Nat) :
    droplet_rotate_state k = ⟨k % 12, (k + 1) % 12⟩ ∧
    path_len = 12 ∧
    (droplet_rotate_state k).current_magnet_path_index < path_len ∧
    (droplet_rotate_state k).next_magnet_path_index < path_len ∧
    (∃ c n, current_magnet_channel (droplet_rotate_state k) = some c ∧
      next_magnet_channel (droplet_rotate_state k) = some n ∧ c < 16 ∧ n < 16 ∧ c ≠ n) ∧
    clockwise_path.Nodup ∧ (∀ c, c ∈ clockwise_path → c < 16) := by
  have hk : k % 12 < 12 := Nat.mod_lt _ (by norm_num)
  have hnext : (k + 1) % 12 = (k % 12 + 1) % 12 := by omega
  obtain ⟨h1, h2, h3, h4, h5⟩ := clockwise_path_lookup ⟨k % 12, hk⟩
  simp only at h1 h2 h3 h4 h5
  rw [droplet_rotate_state_eq, path_len_eq]
  refine ⟨rfl, rfl, hk, Nat.mod_lt _ (by norm_num), ?_, by decide, by decide⟩
  refine ⟨clockwise_path.getD (k % 12) 0, clockwise_path.getD ((k % 12 + 1) % 12) 0,
    h1, ?_, h3, h4, h5⟩
  show clockwise_path[(k + 1) % 12]? = _
  rw [hnext]
  exact h2

end DropletControl
